import Mathlib

/-!
Verification of the influxdata line-protocol codec (Go repository
`influxdata/line-protocol`) against its natural-language specification.

The development shallowly embeds the low-level tokenizer of the
`influxdata` package (the `Tokenizer` type: buffered scanning with
`take`/`takeEsc`, section state machine, syntax-error recovery), the
`Value` type with its sentinel-slice kind discrimination, and the
`Precision` timestamp scaling.  Pure Go functions become Lean functions;
the tokenizer's mutable state becomes explicit state passing on a `Tok`
structure.  Machine integers are modelled as `Int`/`Nat` with explicit
wrap-around where Go overflow semantics matter.

Two instantiations of the buffered reader are modelled:
* the whole-slice form (`NewTokenizerWithBytes`): `complete = true` from
  the start, so `ensure(n)` reduces to `r1+n ≤ len(buf)` and `readMore`
  is never invoked.  All section-level reasoning uses this form.
* the streaming form bound to a pull source, modelled separately as
  `STok` (for the buffer growth / `ensure` / `readMore` claims).

Bytes are modelled as `Nat` (Go `byte` values are < 256; nothing below
depends on an upper bound).  Go byte slices become `List Nat`; a Go
sub-slice `buf[a:b]` becomes `listExtract buf a b`.
-/

/-- The Go sub-slice `l[a:b]` as a list.  (A Go `byte` is modelled as a
plain `Nat`; an abbreviation would hide the `Nat` structure from
arithmetic automation.) -/
def listExtract (l : List Nat) (a b : Nat) : List Nat :=
  (l.drop a).take (b - a)

/-! ### Nat sets (byteset.go)

The Go `byteSet` is a 256-bit predicate (`[4]uint64`); we model it as the
predicate itself.  `get`, `union` and `invert` mirror the source methods;
`newByteSet` mirrors the constructor taking the bytes of a string. -/

/-- A set of byte values (Go `byteSet`, a 256-bit predicate). -/
def ByteSet := Nat → Bool

/-- Membership in the set of bytes of a string (Go `newByteSet`). -/
def newByteSet (s : List Nat) : ByteSet := fun b => s.contains b

/-- Go `(*byteSet).get`. -/
def ByteSet.get (x : ByteSet) (b : Nat) : Bool := x b

/-- Go `(*byteSet).union`. -/
def ByteSet.union (x y : ByteSet) : ByteSet := fun b => x b || y b

/-- Go `(*byteSet).invert`. -/
def ByteSet.invert (x : ByteSet) : ByteSet := fun b => !x b

/-! Concrete character classes of the tokenizer (the `var` block at the
top of the tokenizer source).  Nat literals: 9 TAB, 10 LF, 12 FF,
13 CR, 32 space, 34 quote, 44 comma, 45 minus, 61 equals, 92 backslash,
48–57 digits. -/

/-- Go `fieldSeparatorSpace = newByteSet(" \t\r\f")`. -/
def fieldSeparatorSpace : ByteSet := newByteSet [32, 9, 13, 12]

/-- Go `whitespace = fieldSeparatorSpace.union(newByteSet("\n"))`. -/
def whitespace : ByteSet := fieldSeparatorSpace.union (newByteSet [10])

/-- Go `measurementChars = newByteSet(",").union(whitespace).invert()`. -/
def measurementChars : ByteSet := ((newByteSet [44]).union whitespace).invert

/-- Go `tagKeyChars = newByteSet(",=").union(whitespace).invert()`. -/
def tagKeyChars : ByteSet := ((newByteSet [44, 61]).union whitespace).invert

/-- Go `tagValChars = newByteSet(",=").union(whitespace).invert()`. -/
def tagValChars : ByteSet := ((newByteSet [44, 61]).union whitespace).invert

/-- Go `fieldKeyChars = tagKeyChars`. -/
def fieldKeyChars : ByteSet := tagKeyChars

/-- Go `fieldStringValChars = newByteSet(`"`).invert()`. -/
def fieldStringValChars : ByteSet := (newByteSet [34]).invert

/-- Go `fieldValChars = newByteSet(",").union(whitespace).invert()`. -/
def fieldValChars : ByteSet := ((newByteSet [44]).union whitespace).invert

/-- Go `timeChars = newByteSet("-0123456789")`. -/
def timeChars : ByteSet := newByteSet [45, 48, 49, 50, 51, 52, 53, 54, 55, 56, 57]

/-- Go `notNewline = newByteSet("\n").invert()`. -/
def notNewline : ByteSet := (newByteSet [10]).invert

/-! ### Escape tables (escape.go / part_007)

`newEscaper` computes, for each character to be escaped, its printable
form via Go's `strconv.QuoteRune` with the quotes and leading backslash
stripped.  For the byte values this package ever passes (space, comma,
equals, backslash, double quote) that form is the byte itself; named
control escapes are included for faithfulness. -/

/-- The single character that `strconv.QuoteRune` produces for `b` after
stripping quotes and a leading backslash (identity on printable ASCII,
letters for the named control escapes). -/
def goQuoteChar (b : Nat) : Nat :=
  if b = 7 then 97        -- \a
  else if b = 8 then 98   -- \b
  else if b = 9 then 116  -- \t
  else if b = 10 then 110 -- \n
  else if b = 11 then 118 -- \v
  else if b = 12 then 102 -- \f
  else if b = 13 then 114 -- \r
  else b

/-- Go `escaper`: `table` maps a byte to its printable form after a
backslash (0 if not escapable); `revTable` is the inverse. -/
structure Escaper where
  table : Nat → Nat
  revTable : Nat → Nat

/-- Go `newEscaper`: build both maps from the list of escapable bytes.
The Go loop writes entries in order, so on (hypothetical) collisions the
last write wins; `reverse.find?` reproduces that. -/
def newEscaper (cs : List Nat) : Escaper where
  table := fun b => if cs.contains b then goQuoteChar b else 0
  revTable := fun q =>
    match cs.reverse.find? (fun b => goQuoteChar b = q) with
    | some b => b
    | none => 0

/-- Go `measurementEscapes = newEscaper(" ,")`. -/
def measurementEscapes : Escaper := newEscaper [32, 44]

/-- Go `tagKeyEscapes = newEscaper(",= ")`. -/
def tagKeyEscapes : Escaper := newEscaper [44, 61, 32]

/-- Go `tagValEscapes = newEscaper(", =")`. -/
def tagValEscapes : Escaper := newEscaper [44, 32, 61]

/-- Go `fieldKeyEscapes = tagKeyEscapes`. -/
def fieldKeyEscapes : Escaper := tagKeyEscapes

/-- Go `fieldStringValEscapes = newEscaper(`\"`)`. -/
def fieldStringValEscapes : Escaper := newEscaper [92, 34]

/-! ### Sections -/

/-- Go `Section`: the tokenization sections of a line-protocol entry, in
order.  `nl` is the `newlineSection` error-recovery sink; `endSec` is
`endSection` (ready for a new entry). -/
inductive Section where
  | measurement
  | tag
  | field
  | time
  | nl
  | endSec
deriving DecidableEq, Repr

/-- Numeric value of a section (the Go constants are consecutive from 0). -/
def Section.toNat : Section → Nat
  | .measurement => 0
  | .tag => 1
  | .field => 2
  | .time => 3
  | .nl => 4
  | .endSec => 5

instance : LT Section := ⟨fun a b => a.toNat < b.toNat⟩
instance : LE Section := ⟨fun a b => a.toNat ≤ b.toNat⟩

instance (a b : Section) : Decidable (a < b) :=
  inferInstanceAs (Decidable (a.toNat < b.toNat))

instance (a b : Section) : Decidable (a ≤ b) :=
  inferInstanceAs (Decidable (a.toNat ≤ b.toNat))

/-! ### Tokenizer state, whole-slice instantiation

The Go `Tokenizer` fields `rd`, `complete`, `stats` and `err` are not
modelled here: in the whole-slice form `rd = nil`, `complete = true` and
`err = nil` forever, and `stats` is write-only diagnostic telemetry that
affects no result or control path (the `...Stats` wrappers are modelled
by their underlying operations). -/

/-- Tokenizer state (whole-slice form, `complete = true`). -/
structure Tok where
  /-- `buf` holds the data that has been read. -/
  buf : List Nat
  /-- Earliest retained position: data before `r0` is discarded. -/
  r0 : Nat
  /-- Read position: data in `buf[r1:]` is next to be read. -/
  r1 : Nat
  /-- Scratch buffer for unescaped characters. -/
  escBuf : List Nat
  /-- Whether results of the current consumption will be discarded. -/
  skipping : Bool
  /-- Current section of the entry being read. -/
  sect : Section
deriving DecidableEq, Repr

/-- Go `NewTokenizerWithBytes`. -/
def newTokenizerWithBytes (buf : List Nat) : Tok :=
  { buf := buf, r0 := 0, r1 := 0, escBuf := [], skipping := false, sect := .endSec }

/-- Go `Tokenizer.ensure(n)` in the whole-slice form: `complete` is true,
so the answer is simply whether `r1+n ≤ len(buf)`. -/
def Tok.ensureB (t : Tok) (n : Nat) : Bool := t.r1 + n ≤ t.buf.length

/-- Go `Tokenizer.at(i)`: the byte at `i` past the read position, 0 when
there is no byte there. -/
def Tok.atB (t : Tok) (i : Nat) : Nat := t.buf.getD (t.r1 + i) 0

/-- Go `Tokenizer.advance(n)`. -/
def Tok.advance (t : Tok) (n : Nat) : Tok := { t with r1 := t.r1 + n }

/-- Go `Tokenizer.reset`: discard data up to `r1` and the escape scratch.
When the whole buffer is consumed the buffer restarts empty at index 0. -/
def Tok.reset (t : Tok) : Tok :=
  if t.r1 = t.buf.length then
    { t with buf := [], r1 := 0, r0 := 0, escBuf := [] }
  else
    { t with r0 := t.r1, escBuf := [] }

/-- Length of the maximal prefix of `l` whose bytes are all in `set`
(the inner scan loop of Go `takeStats`). -/
def scanSet (set : ByteSet) : List Nat → Nat
  | [] => 0
  | c :: rest => if set.get c then scanSet set rest + 1 else 0

/-- Go `Tokenizer.take(set)` (and `takeStats`, whose stats updates are
diagnostic only): consume the maximal run of bytes in `set` from `r1`,
returning `buf[r0+start : r1']` with `start = r1-r0`, i.e. the consumed
sub-slice. -/
def Tok.take (t : Tok) (set : ByteSet) : List Nat × Tok :=
  let i := scanSet set (t.buf.drop t.r1)
  (listExtract t.buf t.r1 (t.r1 + i), { t with r1 := t.r1 + i })

/-- Go `Tokenizer.takeFieldSpace`. -/
def Tok.takeFieldSpace (t : Tok) : Tok := (t.take fieldSeparatorSpace).2

/-- The scan loop of Go `takeEscStats` in the whole-slice form.  `pos` is
the absolute scan position (Go `t.r1 + i`), `su` the absolute start of
the most recent unescaped segment (Go `t.r0 + startUnesc`), and `acc`
the bytes appended to the escape scratch so far (Go
`t.escBuf[startEsc:]`).  Returns the final `(r1, su, acc)`.

Branches, in source order: end of buffer stops the scan; a non-backslash
byte stops the scan when outside `set` and is consumed otherwise; a
backslash with no following byte is left intact and the scan stops with
everything consumed; a backslash before a non-escapable byte is left
intact and scanning resumes at the next byte; a backslash before an
escapable byte consumes both and (unless skipping) flushes the pending
segment plus the unescaped replacement byte to the scratch.

The recursion is bounded by a `fuel` argument so that the function stays
kernel-computable; the wrapper passes `buf.length + 1`, which is shown
below to be always sufficient (each step either stops or advances
`pos`). -/
def takeEscGo (set : ByteSet) (escTable : Nat → Nat) (skipping : Bool)
    (buf : List Nat) : Nat → Nat → Nat → List Nat → Nat × Nat × List Nat
  | 0, pos, su, acc => (pos, su, acc)
  | fuel + 1, pos, su, acc =>
    if pos < buf.length then
      if buf.getD pos 0 ≠ 92 then
        if set.get (buf.getD pos 0) then
          takeEscGo set escTable skipping buf fuel (pos + 1) su acc
        else (pos, su, acc)
      else
        if pos + 1 < buf.length then
          if escTable (buf.getD (pos + 1) 0) = 0 then
            takeEscGo set escTable skipping buf fuel (pos + 1) su acc
          else if skipping then
            takeEscGo set escTable skipping buf fuel (pos + 2) su acc
          else
            takeEscGo set escTable skipping buf fuel (pos + 2) (pos + 2)
              (acc ++ listExtract buf su pos ++ [escTable (buf.getD (pos + 1) 0)])
        else
          -- no byte to escape: the backslash stays intact, r1 = len(buf)
          (buf.length, su, acc)
    else (pos, su, acc)

/-- Go `Tokenizer.takeEsc` / `takeEscStats` (whole-slice form; the stats
results are diagnostic only and not modelled).  Returns the taken
(unescaped unless skipping) bytes and the new state. -/
def Tok.takeEsc (t : Tok) (set : ByteSet) (escTable : Nat → Nat) : List Nat × Tok :=
  let r := takeEscGo set escTable t.skipping t.buf (t.buf.length + 1) t.r1 t.r1 []
  let e := r.1
  let su := r.2.1
  let acc := r.2.2
  if acc.isEmpty then
    (listExtract t.buf t.r1 e, { t with r1 := e })
  else
    let v := acc ++ listExtract t.buf su e
    (v, { t with r1 := e, escBuf := t.escBuf ++ v })

/-! ### Specification-side scanner (for claim C1)

`specTakeEsc` restates, as a direct recursion over the remaining input,
what the spec says `takeEsc` must do: consume the maximal run in which
every plain byte is in the set and every backslash followed by an
escapable byte extends the run contributing one unescaped byte; a lone
trailing backslash is passed through literally; a backslash before a
non-escapable byte stays intact and scanning continues.  It also records
whether the run contained an actual escape sequence. -/

/-- Result of the specification-side scan: the consumed raw bytes, the
unescaped output, and whether an escape sequence occurred. -/
structure EscScan where
  cons : List Nat
  outp : List Nat
  hasEsc : Bool
deriving DecidableEq, Repr

/-- The specification-side greedy scan (see section comment). -/
def specTakeEsc (set : ByteSet) (escTable : Nat → Nat) : List Nat → EscScan
  | [] => ⟨[], [], false⟩
  | c :: rest =>
    if c = 92 then
      match rest with
      | [] => ⟨[92], [92], false⟩
      | b :: rest2 =>
        if escTable b ≠ 0 then
          ⟨92 :: b :: (specTakeEsc set escTable rest2).cons,
           escTable b :: (specTakeEsc set escTable rest2).outp, true⟩
        else
          ⟨92 :: (specTakeEsc set escTable (b :: rest2)).cons,
           92 :: (specTakeEsc set escTable (b :: rest2)).outp,
           (specTakeEsc set escTable (b :: rest2)).hasEsc⟩
    else if set.get c then
      ⟨c :: (specTakeEsc set escTable rest).cons,
       c :: (specTakeEsc set escTable rest).outp,
       (specTakeEsc set escTable rest).hasEsc⟩
    else ⟨[], [], false⟩

/-! ### Errors

Go syntax errors are `fmt.Errorf` values; we model each distinct message
as a constructor carrying the interpolated data, so that "same error"
claims are meaningful.  `syntaxErrorf` also moves the tokenizer to the
newline recovery section; `Tok.failWith` captures both effects.
`noFuel` is a sentinel for exhaustion of the explicit bounds placed on
the Go `for` loops; the bounds chosen below are large enough that it is
never returned (each loop iteration either stops, consumes input, or
strictly advances the section). -/

/-- Syntax errors raised by the tokenizer (`syntaxErrorf` call sites). -/
inductive Err where
  | noMeasurement
  | emptyTagName
  | expectedEqAfterTagKey (key : List Nat) (got : Nat)
  | expectedTagValue (key : List Nat)
  | expectedTagKeyEndOfInput
  | expectedTagKeyWhitespace
  | expectedFieldKey
  | wantEqAfterFieldKeyEndOfInput (key : List Nat)
  | wantEqAfterFieldKey (key : List Nat) (got : Nat)
  | expectedFieldValue
  | expectedClosingQuote
  | unexpectedStringTermination
  | unexpectedCharAfterField (got : Nat)
  | invalidTimestamp (got : List Nat)
  | unexpectedTextAfterTimestamp (got : List Nat)
  | unrecognizedFieldType
  | noFuel
deriving DecidableEq, Repr

/-- Go `syntaxErrorf`: return the error and enter the newline recovery
section. -/
def Tok.failWith {α : Type} (t : Tok) (e : Err) : Except Err α × Tok :=
  (.error e, { t with sect := .nl })

/-- Go `ValueKind` (part_008). -/
inductive ValueKind where
  | unknown
  | str
  | int
  | uint
  | float
  | bool
deriving DecidableEq, Repr

/-! ### Section methods

The source's `advanceToSection`/`consumeSection` pair is mutually
recursive with the section methods only superficially: whenever
`consumeSection` invokes a section method, that method's own
`advanceToSection` call is at the current section and does not recurse.
The model therefore stratifies the definitions by target section: each
`advanceTo…` loop dispatches (exactly as `consumeSection` does) on the
current section, which the loop condition confines to sections below the
target, so it only needs the methods already defined at lower strata.
Loops carry explicit bounds as described at `Err.noFuel`. -/

/-- Go `skipEmptyLines` (loop body; each iteration that continues
consumes at least the newline byte, so `buf.length + 1` rounds
suffice). -/
def skipEmptyLinesGo : Nat → Tok → Tok
  | 0, t => t
  | fuel + 1, t =>
    let t1 := t.takeFieldSpace
    if t1.atB 0 = 35 then -- '#': a comment
      let t2 := (t1.take notNewline).2
      if t2.atB 0 ≠ 10 then t2
      else skipEmptyLinesGo fuel (t2.advance 1)
    else if t1.atB 0 = 10 then skipEmptyLinesGo fuel (t1.advance 1)
    else t1

/-- Go `Tokenizer.skipEmptyLines`. -/
def Tok.skipEmptyLines (t : Tok) : Tok := skipEmptyLinesGo (t.buf.length + 1) t

/-- Go `Tokenizer.advanceTagComma`: consume a comma after a measurement
or tag value, erroring when it is not followed by a tag key. -/
def Tok.advanceTagComma (t : Tok) : Option Err × Tok :=
  if ¬ t.ensureB 1 then (none, t)
  else if t.atB 0 ≠ 44 then (none, t)
  else
    let t1 := t.advance 1
    if ¬ t1.ensureB 1 then (some .expectedTagKeyEndOfInput, { t1 with sect := .nl })
    else if whitespace.get (t1.atB 0) then
      (some .expectedTagKeyWhitespace, { t1 with sect := .nl })
    else (none, t1)

/-- Go `Tokenizer.consumeLine`: recovery from a syntax error; consume
through the end of the physical line. -/
def Tok.consumeLine (t : Tok) : Tok :=
  let t1 := (t.take notNewline).2
  let t2 := t1.reset
  let t3 := if t2.ensureB 1 then t2.advance 1 else t2
  { t3 with sect := .endSec }

/-- Go `Tokenizer.Measurement`.  `advanceToSection(MeasurementSection)`
cannot consume anything (no section precedes Measurement), so it reduces
to the two leading checks. -/
def Tok.measurement (t : Tok) : Except Err (Option (List Nat)) × Tok :=
  match t.sect with
  | .measurement =>
    let t1 := t.skipEmptyLines
    let t2 := t1.reset
    let r := t2.takeEsc measurementChars measurementEscapes.revTable
    let measure := r.1
    let t3 := r.2
    if measure.isEmpty then t3.failWith .noMeasurement
    else
      match t3.advanceTagComma with
      | (some e, t4) => (.error e, t4)
      | (none, t4) => (.ok (some measure), { t4 with sect := .tag })
  | _ => (.ok none, t)

/-- The loop of Go `advanceToSection(TagSection)`.  The loop condition
`section < TagSection` confines the dispatch to the Measurement arm of
`consumeSection`. -/
def advTagGo : Nat → Tok → Except Err Bool × Tok
  | 0, t => (.error .noFuel, { t with skipping := false })
  | fuel + 1, t =>
    match t.sect with
    | .measurement =>
      match t.measurement with
      | (.error e, t') => (.error e, { t' with skipping := false })
      | (.ok _, t') => advTagGo fuel t'
    | _ => (.ok true, { t with skipping := false })

/-- Go `advanceToSection(TagSection)`. -/
def Tok.advanceToTag (t : Tok) : Except Err Bool × Tok :=
  if t.sect = .tag then (.ok true, t)
  else if Section.tag < t.sect then (.ok false, t)
  else advTagGo 8 { t with skipping := true }

/-- The body of Go `Tokenizer.NextTag` after its `advanceToSection`
call. -/
def Tok.nextTagCore (t : Tok) : Except Err (Option (List Nat × List Nat)) × Tok :=
  if t.ensureB 1 && fieldSeparatorSpace.get (t.atB 0) then
    (.ok none, { t.takeFieldSpace with sect := .field })
  else
    let rk := t.takeEsc tagKeyChars tagKeyEscapes.revTable
    let tagKey := rk.1
    let t1 := rk.2
    if tagKey.isEmpty then t1.failWith .emptyTagName
    else if ¬ t1.ensureB 1 ∨ t1.atB 0 ≠ 61 then
      t1.failWith (.expectedEqAfterTagKey tagKey (t1.atB 0))
    else
      let t2 := t1.advance 1
      let rv := t2.takeEsc tagValChars tagValEscapes.revTable
      let tagVal := rv.1
      let t3 := rv.2
      if tagVal.isEmpty then t3.failWith (.expectedTagValue tagKey)
      else if ¬ t3.ensureB 1 then
        -- end of input after the tag value: yield the tag, park at Field
        (.ok (some (tagKey, tagVal)), { t3 with sect := .field })
      else
        match t3.advanceTagComma with
        | (some e, t4) => (.error e, t4)
        | (none, t4) => (.ok (some (tagKey, tagVal)), t4)

/-- Go `Tokenizer.NextTag`. -/
def Tok.nextTag (t : Tok) : Except Err (Option (List Nat × List Nat)) × Tok :=
  match t.advanceToTag with
  | (.error e, t') => (.error e, t')
  | (.ok false, t') => (.ok none, t')
  | (.ok true, t') => t'.nextTagCore

/-- The Tag arm of Go `consumeSection`: call `NextTag` until it errors
or reports no more tags.  Each iteration that continues consumed a
nonempty tag key, so `buf.length + 2` rounds suffice. -/
def consumeTagsGo : Nat → Tok → Except Err Unit × Tok
  | 0, t => (.error .noFuel, t)
  | fuel + 1, t =>
    match t.nextTag with
    | (.error e, t') => (.error e, t')
    | (.ok none, t') => (.ok (), t')
    | (.ok (some _), t') => consumeTagsGo fuel t'

/-- The Tag arm of Go `consumeSection`. -/
def Tok.consumeTags (t : Tok) : Except Err Unit × Tok :=
  consumeTagsGo (t.buf.length + 2) t

/-- The loop of Go `advanceToSection(FieldSection)`. -/
def advFieldGo : Nat → Tok → Except Err Bool × Tok
  | 0, t => (.error .noFuel, { t with skipping := false })
  | fuel + 1, t =>
    match t.sect with
    | .measurement =>
      match t.measurement with
      | (.error e, t') => (.error e, { t' with skipping := false })
      | (.ok _, t') => advFieldGo fuel t'
    | .tag =>
      match t.consumeTags with
      | (.error e, t') => (.error e, { t' with skipping := false })
      | (.ok _, t') => advFieldGo fuel t'
    | _ => (.ok true, { t with skipping := false })

/-- Go `advanceToSection(FieldSection)`. -/
def Tok.advanceToField (t : Tok) : Except Err Bool × Tok :=
  if t.sect = .field then (.ok true, t)
  else if Section.field < t.sect then (.ok false, t)
  else advFieldGo 8 { t with skipping := true }

/-- The common tail of Go `NextFieldBytes` after the field value has
been read: dispatch on the byte following the value. -/
def Tok.fieldEnd (t : Tok) (key : List Nat) (kind : ValueKind) (v : List Nat) :
    Except Err (Option (List Nat × ValueKind × List Nat)) × Tok :=
  if ¬ t.ensureB 1 then (.ok (some (key, kind, v)), { t with sect := .endSec })
  else if t.atB 0 = 44 then (.ok (some (key, kind, v)), t.advance 1)
  else if ¬ whitespace.get (t.atB 0) then
    t.failWith (.unexpectedCharAfterField (t.atB 0))
  else
    let t1 := t.takeFieldSpace
    if ¬ t1.ensureB 1 ∨ t1.atB 0 = 10 then
      (.ok (some (key, kind, v)), { t1 with sect := .endSec })
    else (.ok (some (key, kind, v)), { t1 with sect := .time })

/-- The body of Go `Tokenizer.NextFieldBytes` after its
`advanceToSection` call.  The default arm of the value-kind switch
(part_006) records a stats flag, consumes the run and yields it with
kind Unknown. -/
def Tok.nextFieldCore (t : Tok) :
    Except Err (Option (List Nat × ValueKind × List Nat)) × Tok :=
  let rk := t.takeEsc fieldKeyChars fieldKeyEscapes.revTable
  let fieldKey := rk.1
  let t1 := rk.2
  if fieldKey.isEmpty then t1.failWith .expectedFieldKey
  else if ¬ t1.ensureB 1 then t1.failWith (.wantEqAfterFieldKeyEndOfInput fieldKey)
  else if t1.atB 0 ≠ 61 then t1.failWith (.wantEqAfterFieldKey fieldKey (t1.atB 0))
  else
    let t2 := t1.advance 1
    if ¬ t2.ensureB 1 then t2.failWith .expectedFieldValue
    else
      let c := t2.atB 0
      if c = 34 then -- '"': a string field value
        let t3 := t2.advance 1
        let rv := t3.takeEsc fieldStringValChars fieldStringValEscapes.revTable
        let fv := rv.1
        let t4 := rv.2
        if ¬ t4.ensureB 1 then t4.failWith .expectedClosingQuote
        else if t4.atB 0 ≠ 34 then t4.failWith .unexpectedStringTermination
        else (t4.advance 1).fieldEnd fieldKey .str fv
      else if c = 116 ∨ c = 84 ∨ c = 102 ∨ c = 70 then -- t, T, f, F
        let rv := t2.take fieldValChars
        rv.2.fieldEnd fieldKey .bool rv.1
      else if c = 45 ∨ c = 46 ∨ (48 ≤ c ∧ c ≤ 57) then -- -, ., digits
        let rv := t2.take fieldValChars
        let fv := rv.1
        let t3 := rv.2
        match fv.getLast? with
        | some 105 => t3.fieldEnd fieldKey .int fv.dropLast   -- trailing i
        | some 117 => t3.fieldEnd fieldKey .uint fv.dropLast  -- trailing u
        | _ => t3.fieldEnd fieldKey .float fv
      else
        let rv := t2.take fieldValChars
        rv.2.fieldEnd fieldKey .unknown rv.1

/-- Go `Tokenizer.NextFieldBytes`. -/
def Tok.nextFieldBytes (t : Tok) :
    Except Err (Option (List Nat × ValueKind × List Nat)) × Tok :=
  match t.advanceToField with
  | (.error e, t') => (.error e, t')
  | (.ok false, t') => (.ok none, t')
  | (.ok true, t') => t'.nextFieldCore

/-- The Field arm of Go `consumeSection`. -/
def consumeFieldsGo : Nat → Tok → Except Err Unit × Tok
  | 0, t => (.error .noFuel, t)
  | fuel + 1, t =>
    match t.nextFieldBytes with
    | (.error e, t') => (.error e, t')
    | (.ok none, t') => (.ok (), t')
    | (.ok (some _), t') => consumeFieldsGo fuel t'

/-- The Field arm of Go `consumeSection`. -/
def Tok.consumeFields (t : Tok) : Except Err Unit × Tok :=
  consumeFieldsGo (t.buf.length + 2) t

/-- The loop of Go `advanceToSection(TimeSection)`. -/
def advTimeGo : Nat → Tok → Except Err Bool × Tok
  | 0, t => (.error .noFuel, { t with skipping := false })
  | fuel + 1, t =>
    match t.sect with
    | .measurement =>
      match t.measurement with
      | (.error e, t') => (.error e, { t' with skipping := false })
      | (.ok _, t') => advTimeGo fuel t'
    | .tag =>
      match t.consumeTags with
      | (.error e, t') => (.error e, { t' with skipping := false })
      | (.ok _, t') => advTimeGo fuel t'
    | .field =>
      match t.consumeFields with
      | (.error e, t') => (.error e, { t' with skipping := false })
      | (.ok _, t') => advTimeGo fuel t'
    | _ => (.ok true, { t with skipping := false })

/-- Go `advanceToSection(TimeSection)`. -/
def Tok.advanceToTime (t : Tok) : Except Err Bool × Tok :=
  if t.sect = .time then (.ok true, t)
  else if Section.time < t.sect then (.ok false, t)
  else advTimeGo 8 { t with skipping := true }

/-- The body of Go `Tokenizer.TimeBytes` after its `advanceToSection`
call. -/
def Tok.timeCore (t : Tok) : Except Err (Option (List Nat)) × Tok :=
  let start := t.r1 - t.r0
  let rt := t.take timeChars
  let p : Option (List Nat) × Tok :=
    if rt.1.isEmpty then (none, { rt.2 with sect := .endSec }) else (some rt.1, rt.2)
  let timeBytes := p.1
  let t2 := p.2
  if ¬ t2.ensureB 1 then (.ok timeBytes, { t2 with sect := .endSec })
  else if ¬ whitespace.get (t2.atB 0) then
    -- absorb the rest of the line for a better error
    let t3 := (t2.take notNewline).2
    t3.failWith (.invalidTimestamp (listExtract t3.buf (t3.r0 + start) t3.r1))
  else
    let t3 := t2.takeFieldSpace
    if ¬ t3.ensureB 1 then (.ok timeBytes, { t3 with sect := .endSec })
    else if t3.atB 0 ≠ 10 then
      let re := t3.take notNewline
      re.2.failWith (.unexpectedTextAfterTimestamp re.1)
    else (.ok timeBytes, { t3.advance 1 with sect := .endSec })

/-- Go `Tokenizer.TimeBytes`. -/
def Tok.timeBytes (t : Tok) : Except Err (Option (List Nat)) × Tok :=
  match t.advanceToTime with
  | (.error e, t') => (.error e, t')
  | (.ok false, t') => (.ok none, t')
  | (.ok true, t') => t'.timeCore

/-- The loop of Go `advanceToSection(endSection)`; its Newline arm is
`consumeLine` (which never errors). -/
def advEndGo : Nat → Tok → Except Err Bool × Tok
  | 0, t => (.error .noFuel, { t with skipping := false })
  | fuel + 1, t =>
    match t.sect with
    | .measurement =>
      match t.measurement with
      | (.error e, t') => (.error e, { t' with skipping := false })
      | (.ok _, t') => advEndGo fuel t'
    | .tag =>
      match t.consumeTags with
      | (.error e, t') => (.error e, { t' with skipping := false })
      | (.ok _, t') => advEndGo fuel t'
    | .field =>
      match t.consumeFields with
      | (.error e, t') => (.error e, { t' with skipping := false })
      | (.ok _, t') => advEndGo fuel t'
    | .time =>
      match t.timeBytes with
      | (.error e, t') => (.error e, { t' with skipping := false })
      | (.ok _, t') => advEndGo fuel t'
    | .nl => advEndGo fuel t.consumeLine
    | .endSec => (.ok true, { t with skipping := false })

/-- Go `advanceToSection(endSection)`. -/
def Tok.advanceToEnd (t : Tok) : Except Err Bool × Tok :=
  if t.sect = .endSec then (.ok true, t)
  else advEndGo 8 { t with skipping := true }

/-- Go `Tokenizer.Next`: finish the current entry (ignoring any error),
skip blank and comment lines, and start a new entry at the Measurement
section; reports whether another entry is available. -/
def Tok.next (t : Tok) : Bool × Tok :=
  let t1 := t.advanceToEnd.2
  let t2 := t1.skipEmptyLines
  let t3 := Tok.reset { t2 with sect := .measurement }
  (t3.ensureB 1, t3)

/-! ### Precision (part_003) and claim C7

Go `int64` multiplication wraps around; `wrap64` models that, and
`Int.tdiv` models Go's truncating integer division. -/

/-- Go `Precision`. -/
inductive Precision where
  | nanosecond
  | microsecond
  | millisecond
  | second
deriving DecidableEq, Repr

/-- Go `Precision.Duration` as a count of nanoseconds. -/
def Precision.durationNs : Precision → Int
  | .nanosecond => 1
  | .microsecond => 1000
  | .millisecond => 1000000
  | .second => 1000000000

/-- Two's-complement wrap-around into the signed 64-bit range (the
result of a Go `int64` multiplication). -/
def wrap64 (y : Int) : Int := (y + 2 ^ 63) % 2 ^ 64 - 2 ^ 63

/-- Go `Precision.asNanoseconds`: multiply by the precision's duration
and report whether the multiplication succeeded without overflow (via
the `c := x*d; c/d == x` test). -/
def Precision.asNanoseconds (p : Precision) (x : Int) : Int × Bool :=
  if p = .nanosecond then (x, true)
  else
    let d := p.durationNs
    let c := wrap64 (x * d)
    if c.tdiv d = x then (c, true) else (0, false)

/-! ### Value (the value source concatenated into decoder_test.go)

Go byte slices carry an allocation identity here because `Value.Kind`
discriminates by comparing the address of the slice's first element
against the package's four one-byte sentinel arrays (`intSentinel` etc.)
— never by byte content.  `Alloc` names the allocation a slice points
into; slices built from caller data or parsing are `heap`. -/

/-- Allocation identity of a modelled Go byte slice. -/
inductive Alloc where
  | intSent
  | uintSent
  | floatSent
  | boolSent
  | heap
deriving DecidableEq, Repr

/-- A Go byte slice together with its allocation identity. -/
structure Slice where
  alloc : Alloc
  data : List Nat
deriving DecidableEq, Repr

/-- Go `intSentinel = [1]byte{'i'}` (as the slice of it). -/
def intSentinel : Slice := ⟨.intSent, [105]⟩

/-- Go `uintSentinel = [1]byte{'u'}`. -/
def uintSentinel : Slice := ⟨.uintSent, [117]⟩

/-- Go `floatSentinel = [1]byte{'f'}`. -/
def floatSentinel : Slice := ⟨.floatSent, [102]⟩

/-- Go `boolSentinel = [1]byte{'b'}`. -/
def boolSentinel : Slice := ⟨.boolSent, [98]⟩

/-- A Go `float64` as far as this development needs it: NaN, signed
infinity, or a finite decimal `(-1)^neg · mantissa · 10^exp10`.  (The
claims below never examine finite float payloads.) -/
inductive GoFloat where
  | nan
  | inf (neg : Bool)
  | finite (neg : Bool) (mantissa : Nat) (exp10 : Int)
deriving DecidableEq, Repr

/-- Go `math.IsNaN`. -/
def GoFloat.isNaN : GoFloat → Bool
  | .nan => true
  | _ => false

/-- Go `math.IsInf(x, 0)`. -/
def GoFloat.isInf : GoFloat → Bool
  | .inf _ => true
  | _ => false

/-- Go `math.Float64bits`, modelled as an injection into `Nat`: the NaN
and infinity patterns are the real IEEE-754 ones; finite values use an
abstract encoding (no claim examines finite float bit patterns). -/
def GoFloat.bits : GoFloat → Nat
  | .nan => 9221120237041090561
  | .inf false => 9218868437227405312
  | .inf true => 18442240474082181120
  | .finite neg m e => 2 * Nat.pair m (Int.toNat (e + 2000)) + (if neg then 1 else 0)

/-- Go `Value`: `number` holds the `uint64` payload for the non-string
kinds; `bytes` holds the string bytes or a sentinel slice. -/
structure Value where
  number : Nat
  bytes : Slice
deriving DecidableEq, Repr

/-- Go `uint64(x)` for an `int64` value: two's-complement
reinterpretation. -/
def toU64 (x : Int) : Nat := (x % 2 ^ 64).toNat

/-- Go `Value.Kind`: a `bytes` slice whose length is not 1 is a String;
otherwise the identity of the slice's allocation (the address of its
first element) selects the kind, falling through to String. -/
def Value.kind (v : Value) : ValueKind :=
  if v.bytes.data.length ≠ 1 then .str
  else
    match v.bytes.alloc with
    | .intSent => .int
    | .uintSent => .uint
    | .floatSent => .float
    | .boolSent => .bool
    | .heap => .str

/-- Go `Value.StringV` guarded by `mustBe` (which panics on a kind
mismatch; the panic is modelled as `none`). -/
def Value.stringV (v : Value) : Option (List Nat) :=
  if v.kind = .str then some v.bytes.data else none

/-! ### Nat-level numeric parsing

`parseIntBytes`, `parseUintBytes`, `parseFloatBytes` and
`parseBoolBytes` are forks of Go's `strconv` parsers operating on byte
slices; their sources are not part of this snapshot (only their callers
and tests are), so they are modelled from the spec. -/

/-- The two error classes of the `strconv` parsers that `ParseValue`
distinguishes (`*strconv.NumError` with `ErrSyntax` or `ErrRange`). -/
inductive NumErr where
  | badSyn
  | range
deriving DecidableEq, Repr

/-- Accumulate decimal digits; `none` on a non-digit byte. -/
def parseDigitsStep (acc : Option Nat) (c : Nat) : Option Nat :=
  match acc with
  | none => none
  | some n => if 48 ≤ c ∧ c ≤ 57 then some (n * 10 + (c - 48)) else none

/-- Parse a nonempty all-digit run as a natural number. -/
def parseDigitsGo (l : List Nat) : Option Nat :=
  if l.isEmpty then none else l.foldl parseDigitsStep (some 0)

/-- Modelled from the spec: `parseIntBytes(data, 10, 64)`, the byte-slice
fork of `strconv.ParseInt` (not under src/) — an optional sign followed
by decimal digits; out-of-range values yield the range error
(`int = [ "-" ] digits` and "on Int/Uint/Float range overflow, return
the sentinel out-of-range error"). -/
def parseIntBytes (data : List Nat) : Except NumErr Int :=
  match data with
  | [] => .error .badSyn
  | c :: rest =>
    let p : Bool × List Nat :=
      if c = 45 then (true, rest) else if c = 43 then (false, rest) else (false, data)
    match parseDigitsGo p.2 with
    | none => .error .badSyn
    | some n =>
      let v : Int := if p.1 then -(n : Int) else (n : Int)
      if v < -(2 ^ 63) ∨ 2 ^ 63 - 1 < v then .error .range else .ok v

/-- Modelled from the spec: `parseUintBytes(data, 10, 64)`, the
byte-slice fork of `strconv.ParseUint` (not under src/) — decimal digits
only (`uint = digits`), range-checked against 2^64−1. -/
def parseUintBytes (data : List Nat) : Except NumErr Nat :=
  match parseDigitsGo data with
  | none => .error .badSyn
  | some n => if 2 ^ 64 - 1 < n then .error .range else .ok n

/-- ASCII lower-casing (for the case-insensitive special float forms). -/
def lowerByte (b : Nat) : Nat := if 65 ≤ b ∧ b ≤ 90 then b + 32 else b

/-- The special float texts accepted by `strconv.ParseFloat`:
`nan` (unsigned) and optionally-signed `inf` / `infinity`,
case-insensitively. -/
def floatSpecial (data : List Nat) : Option GoFloat :=
  let ls := data.map lowerByte
  if ls = [110, 97, 110] then some .nan
  else if ls = [105, 110, 102] ∨ ls = [105, 110, 102, 105, 110, 105, 116, 121] then
    some (.inf false)
  else if ls = [43, 105, 110, 102] ∨ ls = [43, 105, 110, 102, 105, 110, 105, 116, 121] then
    some (.inf false)
  else if ls = [45, 105, 110, 102] ∨ ls = [45, 105, 110, 102, 105, 110, 105, 116, 121] then
    some (.inf true)
  else none

/-- Whether a decimal `mantissa · 10^exp10` overflows `float64` under
round-to-nearest-even (the exact boundary is `(2^54 − 1) · 2^970`). -/
def floatOverflow (m : Nat) (e : Int) : Bool :=
  if 0 ≤ e then (2 ^ 54 - 1) * 2 ^ 970 ≤ m * 10 ^ e.toNat
  else (2 ^ 54 - 1) * 2 ^ 970 * 10 ^ (-e).toNat ≤ m

/-- Whether `c` is an ASCII decimal digit. -/
def isDigitByte (c : Nat) : Bool := 48 ≤ c && c ≤ 57

/-- Parse the spec grammar for a finite float:
`[ "-" ] ( digits [ "." [digits] [exp] ] | digits exp | "." digits [exp] )`,
returning the sign, mantissa digits and adjusted decimal exponent. -/
def parseFloatFinite (l : List Nat) : Option (Bool × Nat × Int) :=
  let p : Bool × List Nat :=
    if l.head? = some 45 then (true, l.tail) else (false, l)
  let neg := p.1
  let l1 := p.2
  let intPart := l1.takeWhile isDigitByte
  let l2 := l1.dropWhile isDigitByte
  let q : List Nat × List Nat :=
    if l2.head? = some 46 then
      (l2.tail.takeWhile isDigitByte, l2.tail.dropWhile isDigitByte)
    else ([], l2)
  let fracPart := q.1
  let l3 := q.2
  if intPart.isEmpty && fracPart.isEmpty then none
  else
    let m := (intPart ++ fracPart).foldl (fun a c => a * 10 + (c - 48)) 0
    match l3 with
    | [] => some (neg, m, -(fracPart.length : Int))
    | c :: l4 =>
      if c = 101 ∨ c = 69 then -- e / E
        let r : Bool × List Nat :=
          if l4.head? = some 43 then (false, l4.tail)
          else if l4.head? = some 45 then (true, l4.tail)
          else (false, l4)
        let eDigits := r.2.takeWhile isDigitByte
        let l5 := r.2.dropWhile isDigitByte
        if eDigits.isEmpty ∨ ¬ l5.isEmpty then none
        else
          let ev : Int := eDigits.foldl (fun a c => a * 10 + (c - 48)) 0
          some (neg, m, (if r.1 then -ev else ev) - fracPart.length)
      else none

/-- Modelled from the spec: `parseFloatBytes(data, 64)`, the byte-slice
fork of `strconv.ParseFloat` (not under src/) — the special NaN/infinity
forms parse to the corresponding values without error; otherwise the
spec's float grammar applies, with decimal overflow reported as the
range error. -/
def parseFloatBytes (data : List Nat) : Except NumErr GoFloat :=
  match floatSpecial data with
  | some f => .ok f
  | none =>
    match parseFloatFinite data with
    | none => .error .badSyn
    | some (neg, m, e) =>
      if floatOverflow m e then .error .range else .ok (.finite neg m e)

/-- Modelled from the spec: `parseBoolBytes` (not under src/) — the
accepted bool field texts are `t`, `T`, `true`, `True`, `TRUE` and the
`f` equivalents (§4.3.2). -/
def parseBoolBytes (data : List Nat) : Option Nat :=
  if data = [116] ∨ data = [84] ∨ data = [116, 114, 117, 101]
      ∨ data = [84, 114, 117, 101] ∨ data = [84, 82, 85, 69] then some 1
  else if data = [102] ∨ data = [70] ∨ data = [102, 97, 108, 115, 101]
      ∨ data = [70, 97, 108, 115, 101] ∨ data = [70, 65, 76, 83, 69] then some 0
  else none

/-- Errors returned by `ParseValue`; `outOfRange` is the
`ErrValueOutOfRange` sentinel (`errors.Is` compares against it), the
others are the distinct `errors.New` / `fmt.Errorf` messages. -/
inductive VErr where
  | outOfRange
  | invalidIntSyn
  | invalidUintSyn
  | invalidFloatSyn
  | nonNumber (data : List Nat)
  | invalidBool (data : List Nat)
  | unknownKind (data : List Nat)
deriving DecidableEq, Repr

/-- Go `ParseValue(kind, data)`: parse `data` as a value of the given
kind.  The `maybeOutOfRange` translation (a `strconv` range error
becomes the `ErrValueOutOfRange` sentinel, any other parse error the
fixed message) is inlined into the match arms.  A String value adopts
the byte slice without copy. -/
def ParseValue (kind : ValueKind) (data : List Nat) : Except VErr Value :=
  match kind with
  | .int =>
    match parseIntBytes data with
    | .error .range => .error .outOfRange
    | .error .badSyn => .error .invalidIntSyn
    | .ok x => .ok ⟨toU64 x, intSentinel⟩
  | .uint =>
    match parseUintBytes data with
    | .error .range => .error .outOfRange
    | .error .badSyn => .error .invalidUintSyn
    | .ok x => .ok ⟨x, uintSentinel⟩
  | .float =>
    match parseFloatBytes data with
    | .error .range => .error .outOfRange
    | .error .badSyn => .error .invalidFloatSyn
    | .ok x =>
      if x.isInf || x.isNaN then .error (.nonNumber data)
      else .ok ⟨x.bits, floatSentinel⟩
  | .bool =>
    match parseBoolBytes data with
    | none => .error (.invalidBool data)
    | some n => .ok ⟨n, boolSentinel⟩
  | .str => .ok ⟨0, ⟨.heap, data⟩⟩
  | .unknown => .error (.unknownKind data)

/-- The native scalars accepted by Go `NewValue` (`int64`, `uint64`,
`float64`, `bool`, `string`, `[]byte`). -/
inductive GoNative where
  | i (x : Int)
  | u (x : Nat)
  | f (x : GoFloat)
  | b (x : Bool)
  | s (x : List Nat)
  | bs (x : List Nat)
deriving DecidableEq, Repr

/-- Go `NewValue`: construct a Value from a native scalar; NaN and the
infinities are rejected; `[]byte` input is copied to a fresh heap
allocation. -/
def NewValue : GoNative → Option Value
  | .i x => some ⟨toU64 x, intSentinel⟩
  | .u x => some ⟨x, uintSentinel⟩
  | .f x => if x.isInf || x.isNaN then none else some ⟨x.bits, floatSentinel⟩
  | .b x => some ⟨if x then 1 else 0, boolSentinel⟩
  | .s x => some ⟨0, ⟨.heap, x⟩⟩
  | .bs x => some ⟨0, ⟨.heap, x⟩⟩

/-- The decimal digits of `n`, most significant first (fuel-bounded so
that the definition computes; `n + 1` units always suffice). -/
def natDecimalGo : Nat → Nat → List Nat
  | 0, _ => []
  | fuel + 1, n =>
    if n < 10 then [48 + n] else natDecimalGo fuel (n / 10) ++ [48 + n % 10]

/-- The decimal text of a natural number. -/
def natDecimal (n : Nat) : List Nat := natDecimalGo (n + 1) n

/-- The decimal text of an integer (minus sign for negatives). -/
def intDecimal (v : Int) : List Nat :=
  if v < 0 then 45 :: natDecimal v.natAbs else natDecimal v.toNat

/-! ### Claim C5: strict-mode field-value kind dispatch

Modelled from the spec: the Decoder's field-value kind discrimination
with its strict/lax toggle (spec §4.3.2) is not under src/ — only its
tests are (decoder_test.go expects `field value has unrecognized type`
in the default strict mode), and the src `Tokenizer` variant (part_006)
predates the toggle and always yields kind Unknown.  The dispatch below
follows the spec's table: on `"` a string, on `t/T/f/F` a bool, on
`-`/`.`/digit a numeric; on anything else strict mode fails with
`field value has unrecognized type` while opt-in lax mode consumes the
run and yields it with kind Unknown. -/
def fieldValueSwitch (lax : Bool) (t : Tok) :
    Except Err (ValueKind × List Nat) × Tok :=
  let c := t.atB 0
  if c = 34 then
    let t3 := t.advance 1
    let rv := t3.takeEsc fieldStringValChars fieldStringValEscapes.revTable
    if ¬ rv.2.ensureB 1 then rv.2.failWith .expectedClosingQuote
    else if rv.2.atB 0 ≠ 34 then rv.2.failWith .unexpectedStringTermination
    else (.ok (.str, rv.1), rv.2.advance 1)
  else if c = 116 ∨ c = 84 ∨ c = 102 ∨ c = 70 then
    let rv := t.take fieldValChars
    (.ok (.bool, rv.1), rv.2)
  else if c = 45 ∨ c = 46 ∨ (48 ≤ c ∧ c ≤ 57) then
    let rv := t.take fieldValChars
    match rv.1.getLast? with
    | some 105 => (.ok (.int, rv.1.dropLast), rv.2)
    | some 117 => (.ok (.uint, rv.1.dropLast), rv.2)
    | _ => (.ok (.float, rv.1), rv.2)
  else if lax then
    let rv := t.take fieldValChars
    (.ok (.unknown, rv.1), rv.2)
  else t.failWith .unrecognizedFieldType

/-! ### The streaming reader (readMore / ensure), claims C3 and C8

The streaming instantiation is modelled separately: the pull source is a
list of `Read` results (bytes plus status), each consumed by one
`readMore` call; a drained source behaves as `(0, EOF)`.  Go slice
capacity is tracked explicitly in `bufCap`. -/

/-- Go constants: buffers grow by at least 8K and are grown or slid when
less than 4K of read space remains. -/
def minGrow : Nat := 8192

/-- See `minGrow`. -/
def minRead : Nat := minGrow / 2

/-- The status part of one `io.Reader.Read` result. -/
inductive ReadStatus where
  | ok
  | eof
  | fail
deriving DecidableEq, Repr

/-- One `Read` result of the pull source. -/
structure ReadEv where
  data : List Nat
  status : ReadStatus
deriving DecidableEq, Repr

/-- Streaming tokenizer state: the buffer-management fields of the Go
`Tokenizer` plus the modelled source. -/
structure STok where
  buf : List Nat
  bufCap : Nat
  r0 : Nat
  r1 : Nat
  complete : Bool
  err : Bool
  src : List ReadEv
deriving DecidableEq, Repr

/-- The room-making first half of Go `readMore`: when less than
`minRead` bytes of tail capacity remain, either slide the live window
`buf[r0:]` to the front (when that regains `minRead`), or allocate a
larger buffer and copy only the live window into it (the discarded
prefix `buf[:r0]` is not copied). -/
def STok.makeRoom (t : STok) : STok :=
  if t.bufCap - t.buf.length < minRead then
    if t.r0 + (t.bufCap - t.buf.length) ≥ minRead then
      { t with buf := t.buf.drop t.r0, r1 := t.r1 - t.r0, r0 := 0 }
    else
      let used := t.buf.length - t.r0
      let n1 := if t.bufCap * 2 - used < minGrow then used + minGrow else t.bufCap * 2
      { t with buf := t.buf.drop t.r0, bufCap := n1, r1 := t.r1 - t.r0, r0 := 0 }
  else t

/-- Go `readMore`: make room if needed, then read into the free tail
`buf[len:cap]` (the source may return fewer bytes); end of input or a
read error sets `complete`. -/
def STok.readMore (t : STok) : STok :=
  if t.complete then t
  else
    let t1 := t.makeRoom
    match t1.src with
    | [] => { t1 with complete := true }
    | ev :: rest =>
      let chunk := ev.data.take (t1.bufCap - t1.buf.length)
      let t2 := { t1 with buf := t1.buf ++ chunk, src := rest }
      match ev.status with
      | .ok => t2
      | .eof => { t2 with complete := true }
      | .fail => { t2 with complete := true, err := true }

/-- The loop of Go `ensure1` (fuel-bounded; each round either finishes,
consumes one source event, or sets `complete`, so `src.length + 2`
rounds always suffice). -/
def ensure1Go : Nat → STok → Nat → Bool × STok
  | 0, t, _ => (false, t)
  | fuel + 1, t, n =>
    if t.complete then (false, t)
    else
      let t' := t.readMore
      if t'.r1 + n ≤ t'.buf.length then (true, t')
      else ensure1Go fuel t' n

/-- Go `ensure(n)` for the streaming form. -/
def STok.ensure (t : STok) (n : Nat) : Bool × STok :=
  if t.r1 + n ≤ t.buf.length then (true, t)
  else ensure1Go (t.src.length + 2) t n

/-! ### Claim C3: the buffer-index invariant -/

/-- The buffer-index invariant `0 ≤ r0 ≤ r1 ≤ len(buf)` (the `0 ≤ r0`
part is automatic for natural numbers). -/
def Tok.Inv (t : Tok) : Prop := t.r0 ≤ t.r1 ∧ t.r1 ≤ t.buf.length

instance (t : Tok) : Decidable t.Inv := by unfold Tok.Inv; infer_instance

/-- The unread remainder of the buffer. -/
def Tok.rem (t : Tok) : List Nat := t.buf.drop t.r1

/-! Quick sanity examples for the scanning primitives (values checked
against the Go tests). -/

example :
    ((newTokenizerWithBytes [97, 98, 32, 99]).take measurementChars).1 = [97, 98] := by
  decide

example :
    ((newTokenizerWithBytes [97, 92, 44, 98, 32]).takeEsc tagKeyChars
      tagKeyEscapes.revTable).1 = [97, 44, 98] := by
  decide

example :
    ((newTokenizerWithBytes [97, 92, 63, 98, 32]).takeEsc tagKeyChars
      tagKeyEscapes.revTable).1 = [97, 92, 63, 98] := by
  decide

example :
    ((newTokenizerWithBytes [97, 92]).takeEsc tagKeyChars
      tagKeyEscapes.revTable).1 = [97, 92] := by
  decide

/-! ### List-extraction helper lemmas -/

theorem listExtract_self (l : List Nat) (a : Nat) : listExtract l a a = [] := by
  simp [listExtract]

theorem listExtract_snoc (l : List Nat) (a b : Nat) (hab : a ≤ b) (hb : b < l.length) :
    listExtract l a (b + 1) = listExtract l a b ++ [l.getD b 0] := by
  unfold listExtract
  have h1 : b + 1 - a = (b - a) + 1 := by omega
  rw [h1, List.take_succ]
  congr 1
  rw [List.getElem?_drop]
  have h2 : a + (b - a) = b := by omega
  simp [List.getD, h2, List.getElem?_eq_getElem hb]

theorem listExtract_len_le (l : List Nat) (a b : Nat) (h2 : l.length ≤ a) :
    listExtract l a b = [] := by
  simp [listExtract, List.drop_eq_nil_of_le h2]

/-! ### Claim C1: `takeEsc` refines the specification scanner -/

theorem specTakeEsc_cons_plain (set : ByteSet) (escT : Nat → Nat) (c : Nat)
    (rest : List Nat) (hc : ¬ c = 92) :
    specTakeEsc set escT (c :: rest)
      = if set.get c then
          ⟨c :: (specTakeEsc set escT rest).cons,
           c :: (specTakeEsc set escT rest).outp,
           (specTakeEsc set escT rest).hasEsc⟩
        else ⟨[], [], false⟩ := by
  cases rest <;> simp [specTakeEsc, hc]

theorem takeEscGo_spec (set : ByteSet) (escT : Nat → Nat) (buf : List Nat) :
    ∀ fuel pos su acc, su ≤ pos → buf.length ≤ pos + fuel →
    (takeEscGo set escT false buf fuel pos su acc).1
        = pos + (specTakeEsc set escT (buf.drop pos)).cons.length
    ∧ su ≤ (takeEscGo set escT false buf fuel pos su acc).2.1
    ∧ (takeEscGo set escT false buf fuel pos su acc).2.1
        ≤ (takeEscGo set escT false buf fuel pos su acc).1
    ∧ (takeEscGo set escT false buf fuel pos su acc).2.2
          ++ listExtract buf (takeEscGo set escT false buf fuel pos su acc).2.1
              (takeEscGo set escT false buf fuel pos su acc).1
        = acc ++ listExtract buf su pos ++ (specTakeEsc set escT (buf.drop pos)).outp
    ∧ acc.length ≤ (takeEscGo set escT false buf fuel pos su acc).2.2.length
    ∧ ((specTakeEsc set escT (buf.drop pos)).hasEsc = false →
          (takeEscGo set escT false buf fuel pos su acc).2.2 = acc
          ∧ (takeEscGo set escT false buf fuel pos su acc).2.1 = su)
    ∧ ((specTakeEsc set escT (buf.drop pos)).hasEsc = true →
          acc.length < (takeEscGo set escT false buf fuel pos su acc).2.2.length) := by
  intro fuel
  induction fuel with
  | zero =>
    intro pos su acc hsu hlen
    have hd : buf.drop pos = [] := List.drop_eq_nil_of_le (by omega)
    simp [takeEscGo, hd, specTakeEsc, hsu, listExtract_self]
  | succ f ih =>
    intro pos su acc hsu hlen
    by_cases hpos : pos < buf.length
    · have hd : buf.drop pos = buf[pos] :: buf.drop (pos + 1) :=
        List.drop_eq_getElem_cons hpos
      have hgd : buf.getD pos 0 = buf[pos] := List.getD_eq_getElem buf 0 hpos
      by_cases hc : buf[pos] = 92
      · -- a backslash
        by_cases hp2 : pos + 1 < buf.length
        · have hd2 : buf.drop (pos + 1) = buf[pos + 1] :: buf.drop (pos + 2) :=
            List.drop_eq_getElem_cons hp2
          have hgd2 : buf.getD (pos + 1) 0 = buf[pos + 1] :=
            List.getD_eq_getElem buf 0 hp2
          by_cases hrep : escT buf[pos + 1] = 0
          · -- backslash stays intact, scanning continues at the next byte
            have hstep :
                takeEscGo set escT false buf (f + 1) pos su acc
                  = takeEscGo set escT false buf f (pos + 1) su acc := by
              simp [takeEscGo, hpos, hgd, hc, hp2, hgd2, hrep]
            have hspec :
                specTakeEsc set escT (buf.drop pos)
                  = ⟨92 :: (specTakeEsc set escT (buf.drop (pos + 1))).cons,
                     92 :: (specTakeEsc set escT (buf.drop (pos + 1))).outp,
                     (specTakeEsc set escT (buf.drop (pos + 1))).hasEsc⟩ := by
              rw [hd, hd2]
              simp [specTakeEsc, hc, hrep]
            obtain ⟨ih1, ih2, ih3, ih4, ih5, ih6, ih7⟩ :=
              ih (pos + 1) su acc (by omega) (by omega)
            rw [hstep, hspec]
            have hext : listExtract buf su (pos + 1) = listExtract buf su pos ++ [92] := by
              rw [listExtract_snoc buf su pos hsu hpos, hgd, hc]
            refine ⟨by simp [ih1]; omega, ih2, ih3, ?_, ih5, ih6, ih7⟩
            rw [ih4, hext]
            simp
          · -- an escape sequence
            have hstep :
                takeEscGo set escT false buf (f + 1) pos su acc
                  = takeEscGo set escT false buf f (pos + 2) (pos + 2)
                      (acc ++ listExtract buf su pos ++ [escT buf[pos + 1]]) := by
              rw [← hgd2]
              simp [takeEscGo, hpos, hgd, hc, hp2, hgd2, hrep]
            have hspec :
                specTakeEsc set escT (buf.drop pos)
                  = ⟨92 :: buf[pos + 1] :: (specTakeEsc set escT (buf.drop (pos + 2))).cons,
                     escT buf[pos + 1] :: (specTakeEsc set escT (buf.drop (pos + 2))).outp,
                     true⟩ := by
              rw [hd, hd2]
              simp [specTakeEsc, hc, hrep]
            obtain ⟨ih1, ih2, ih3, ih4, ih5, ih6, ih7⟩ :=
              ih (pos + 2) (pos + 2)
                (acc ++ listExtract buf su pos ++ [escT buf[pos + 1]])
                (by omega) (by omega)
            rw [hstep, hspec]
            refine ⟨by rw [ih1]; simp; omega, by omega, ih3, ?_,
              by simp at ih5 ⊢; omega,
              by intro hfalse; simp at hfalse, by intro _; simp at ih5 ⊢; omega⟩
            rw [ih4, listExtract_self]
            simp
        · -- lone trailing backslash
          have hplen : pos + 1 = buf.length := by omega
          have hd2 : buf.drop (pos + 1) = [] := List.drop_eq_nil_of_le (by omega)
          have hstep :
              takeEscGo set escT false buf (f + 1) pos su acc = (buf.length, su, acc) := by
            simp [takeEscGo, hpos, hgd, hc, hp2]
          have hspec : specTakeEsc set escT (buf.drop pos) = ⟨[92], [92], false⟩ := by
            rw [hd, hd2]
            simp [specTakeEsc, hc]
          rw [hstep, hspec]
          have hext : listExtract buf su buf.length = listExtract buf su pos ++ [92] := by
            rw [← hplen, listExtract_snoc buf su pos hsu hpos, hgd, hc]
          refine ⟨by simp; omega, le_refl _, by show su ≤ buf.length; omega, ?_,
            le_refl _, fun _ => ⟨rfl, rfl⟩, by intro hfalse; simp at hfalse⟩
          show acc ++ listExtract buf su buf.length = _
          rw [hext]
          simp
      · -- a plain byte
        by_cases hset : set.get buf[pos]
        · -- in the set: consumed
          have hstep :
              takeEscGo set escT false buf (f + 1) pos su acc
                = takeEscGo set escT false buf f (pos + 1) su acc := by
            simp [takeEscGo, hpos, hgd, hc, hset]
          have hspec :
              specTakeEsc set escT (buf.drop pos)
                = ⟨buf[pos] :: (specTakeEsc set escT (buf.drop (pos + 1))).cons,
                   buf[pos] :: (specTakeEsc set escT (buf.drop (pos + 1))).outp,
                   (specTakeEsc set escT (buf.drop (pos + 1))).hasEsc⟩ := by
            rw [hd, specTakeEsc_cons_plain set escT _ _ hc]
            simp [hset]
          obtain ⟨ih1, ih2, ih3, ih4, ih5, ih6, ih7⟩ :=
            ih (pos + 1) su acc (by omega) (by omega)
          rw [hstep, hspec]
          have hext : listExtract buf su (pos + 1) = listExtract buf su pos ++ [buf[pos]] := by
            rw [listExtract_snoc buf su pos hsu hpos, hgd]
          refine ⟨by simp [ih1]; omega, ih2, ih3, ?_, ih5, ih6, ih7⟩
          rw [ih4, hext]
          simp
        · -- outside the set: the scan stops
          have hstep :
              takeEscGo set escT false buf (f + 1) pos su acc = (pos, su, acc) := by
            simp [takeEscGo, hpos, hgd, hc, hset]
          have hspec : specTakeEsc set escT (buf.drop pos) = ⟨[], [], false⟩ := by
            rw [hd, specTakeEsc_cons_plain set escT _ _ hc]
            simp [hset]
          rw [hstep, hspec]
          exact ⟨by simp, le_refl _, hsu, by simp, le_refl _, fun _ => ⟨rfl, rfl⟩,
            by intro hfalse; simp at hfalse⟩
    · -- past the end of the buffer
      have hd : buf.drop pos = [] := List.drop_eq_nil_of_le (by omega)
      simp [takeEscGo, hpos, hd, specTakeEsc, hsu, listExtract_self]

theorem specTakeEsc_cons_take_aux (set : ByteSet) (escT : Nat → Nat) :
    ∀ (n : Nat) (l : List Nat), l.length ≤ n →
    (specTakeEsc set escT l).cons = l.take (specTakeEsc set escT l).cons.length := by
  intro n
  induction n with
  | zero =>
    intro l h
    have hl : l = [] := List.length_eq_zero.mp (by omega)
    subst hl
    simp [specTakeEsc]
  | succ n ih =>
    intro l h
    match l with
    | [] => simp [specTakeEsc]
    | [c] =>
      rw [specTakeEsc.eq_2]
      by_cases hc : c = 92
      · simp [hc]
      · by_cases hset : set.get c = true
        · simp [hc, hset, specTakeEsc]
        · simp [hc, hset]
    | c :: b :: rest =>
      rw [specTakeEsc.eq_3]
      simp only [List.length_cons] at h
      by_cases hc : c = 92
      · by_cases hr : escT b ≠ 0
        · have ihr := ih rest (by omega)
          simp [hc, hr]
          exact ihr
        · have ihr := ih (b :: rest) (by simp; omega)
          simp [hc, hr]
          exact ihr
      · by_cases hset : set.get c = true
        · have ihr := ih (b :: rest) (by simp; omega)
          simp [hc, hset]
          exact ihr
        · simp [hc, hset]

/-- The consumed run of the specification scanner is the corresponding
prefix of the scanned input. -/
theorem specTakeEsc_cons_take (set : ByteSet) (escT : Nat → Nat) (l : List Nat) :
    (specTakeEsc set escT l).cons = l.take (specTakeEsc set escT l).cons.length :=
  specTakeEsc_cons_take_aux set escT l.length l (le_refl _)

/-- Claim C1: for every byte set and escape table, `takeEsc` consumes
exactly the specification scanner's maximal run (in which every plain
byte is in the set and every backslash followed by an escapable byte
extends the run contributing one unescaped byte, a lone trailing
backslash passing through literally), returns its unescaped output, and
the result is accumulated in the escape-scratch buffer if and only if
the consumed run contained an escape sequence — otherwise it is the
zero-copy sub-slice of the input buffer and the scratch is untouched. -/
theorem claim_C1_takeEsc (set : ByteSet) (escT : Nat → Nat) (t : Tok)
    (hskip : t.skipping = false) :
    (t.takeEsc set escT).1 = (specTakeEsc set escT (t.buf.drop t.r1)).outp
    ∧ (t.takeEsc set escT).2.r1
        = t.r1 + (specTakeEsc set escT (t.buf.drop t.r1)).cons.length
    ∧ (specTakeEsc set escT (t.buf.drop t.r1)).cons
        = (t.buf.drop t.r1).take (specTakeEsc set escT (t.buf.drop t.r1)).cons.length
    ∧ ((specTakeEsc set escT (t.buf.drop t.r1)).hasEsc = true →
        (t.takeEsc set escT).2.escBuf = t.escBuf ++ (t.takeEsc set escT).1)
    ∧ ((specTakeEsc set escT (t.buf.drop t.r1)).hasEsc = false →
        (t.takeEsc set escT).2.escBuf = t.escBuf
        ∧ (t.takeEsc set escT).1 = listExtract t.buf t.r1 (t.takeEsc set escT).2.r1)
    ∧ (t.takeEsc set escT).2.buf = t.buf
    ∧ (t.takeEsc set escT).2.r0 = t.r0
    ∧ (t.takeEsc set escT).2.sect = t.sect := by
  obtain ⟨h1, h2, h3, h4, h5, h6, h7⟩ :=
    takeEscGo_spec set escT t.buf (t.buf.length + 1) t.r1 t.r1 [] (le_refl _) (by omega)
  rw [listExtract_self, List.nil_append, List.nil_append] at h4
  by_cases hesc : (specTakeEsc set escT (t.buf.drop t.r1)).hasEsc
  · -- escapes occurred: the scratch-buffer branch is taken
    have hne := h7 hesc
    have hnem :
        (takeEscGo set escT false t.buf (t.buf.length + 1) t.r1 t.r1 []).2.2.isEmpty
          = false := by
      rcases hne' : (takeEscGo set escT false t.buf (t.buf.length + 1) t.r1 t.r1 []).2.2 with
        _ | _
      · rw [hne'] at hne; simp at hne
      · simp
    simp only [Tok.takeEsc, hskip, hnem, Bool.false_eq_true, if_false]
    exact ⟨h4, h1, specTakeEsc_cons_take set escT _, fun _ => trivial,
      fun hc => by rw [hc] at hesc; simp at hesc, trivial, trivial, trivial⟩
  · -- no escapes: the zero-copy branch is taken
    have hfalse : (specTakeEsc set escT (t.buf.drop t.r1)).hasEsc = false := by
      simpa using hesc
    obtain ⟨hacc, hsu⟩ := h6 hfalse
    have hnem :
        (takeEscGo set escT false t.buf (t.buf.length + 1) t.r1 t.r1 []).2.2.isEmpty
          = true := by
      rw [hacc]; rfl
    rw [hacc, hsu, List.nil_append] at h4
    simp only [Tok.takeEsc, hskip, hnem, if_true]
    exact ⟨h4, h1, specTakeEsc_cons_take set escT _,
      fun hc => by rw [hc] at hfalse; simp at hfalse, fun _ => ⟨trivial, trivial⟩,
      trivial, trivial, trivial⟩

/-- Witness for C1 at the concrete input `a\,b ` with the tag-key set
and escapes: the skipping flag of a fresh whole-slice tokenizer is
false, and the unescaped result matches the specification scanner. -/
theorem claim_C1_takeEsc_witness :
    (newTokenizerWithBytes [97, 92, 44, 98, 32]).skipping = false
    ∧ ((newTokenizerWithBytes [97, 92, 44, 98, 32]).takeEsc tagKeyChars
        tagKeyEscapes.revTable).1
      = (specTakeEsc tagKeyChars tagKeyEscapes.revTable
          ((newTokenizerWithBytes [97, 92, 44, 98, 32]).buf.drop
            (newTokenizerWithBytes [97, 92, 44, 98, 32]).r1)).outp :=
  ⟨rfl, (claim_C1_takeEsc tagKeyChars tagKeyEscapes.revTable _ rfl).1⟩

theorem wrap64_range (y : Int) : -(2 ^ 63) ≤ wrap64 y ∧ wrap64 y < 2 ^ 63 := by
  have h1 : 0 ≤ (y + 2 ^ 63) % 2 ^ 64 := Int.emod_nonneg _ (by norm_num)
  have h2 : (y + 2 ^ 63) % 2 ^ 64 < 2 ^ 64 := Int.emod_lt_of_pos _ (by norm_num)
  unfold wrap64
  omega

theorem wrap64_sub_mul (y : Int) : ∃ k : Int, wrap64 y = y - 2 ^ 64 * k := by
  refine ⟨(y + 2 ^ 63) / 2 ^ 64, ?_⟩
  have h := Int.emod_add_ediv (y + 2 ^ 63) (2 ^ 64)
  unfold wrap64
  omega

theorem wrap64_eq_self (y : Int) (h1 : -(2 ^ 63) ≤ y) (h2 : y < 2 ^ 63) :
    wrap64 y = y := by
  have h3 : (y + 2 ^ 63) % 2 ^ 64 = y + 2 ^ 63 :=
    Int.emod_eq_of_lt (by omega) (by omega)
  unfold wrap64
  omega

theorem int_tmod_lower (a b : Int) (hb : 0 < b) : -b < a.tmod b := by
  rcases a with m | m
  · calc -b < 0 := by omega
    _ ≤ (Int.ofNat m).tmod b := Int.tmod_nonneg b (Int.ofNat_nonneg m)
  · rcases b with n | n
    · simp only [Int.ofNat_eq_coe] at hb
      have hn : 0 < n := by exact_mod_cast hb
      have h3 : (m + 1) % n < n := Nat.mod_lt (m + 1) hn
      show -(Int.ofNat n) < -(Int.ofNat ((m + 1) % n))
      simp only [Int.ofNat_eq_coe]
      have h4 : ((m + 1) % n : Int) < (n : Int) := by exact_mod_cast h3
      omega
    · exact absurd hb (not_lt.mpr (le_of_lt (Int.negSucc_lt_zero n)))

theorem durationNs_pos (p : Precision) : 0 < p.durationNs ∧ p.durationNs ≤ 1000000000 := by
  cases p <;> simp [Precision.durationNs]

/-- Claim C7: for every precision and every signed 64-bit `x`,
`asNanoseconds` returns `(x·d, true)` exactly when the mathematical
product fits in a signed 64-bit integer and `(0, false)` otherwise;
for Nanosecond it is the identity and always succeeds. -/
theorem claim_C7_asNanoseconds (p : Precision) (x : Int)
    (hx : -(2 ^ 63) ≤ x ∧ x < 2 ^ 63) :
    (p = .nanosecond → p.asNanoseconds x = (x, true))
    ∧ ((-(2 ^ 63) ≤ x * p.durationNs ∧ x * p.durationNs < 2 ^ 63) →
        p.asNanoseconds x = (x * p.durationNs, true))
    ∧ (¬ (-(2 ^ 63) ≤ x * p.durationNs ∧ x * p.durationNs < 2 ^ 63) →
        p.asNanoseconds x = (0, false)) := by
  obtain ⟨hd0, hdle⟩ := durationNs_pos p
  refine ⟨fun hp => by simp [hp, Precision.asNanoseconds], fun hfit => ?_, fun hnofit => ?_⟩
  · -- the product fits: the overflow check succeeds
    by_cases hp : p = .nanosecond
    · subst hp
      simp [Precision.asNanoseconds, Precision.durationNs]
    · have hw : wrap64 (x * p.durationNs) = x * p.durationNs :=
        wrap64_eq_self _ hfit.1 hfit.2
      have ht : (x * p.durationNs).tdiv p.durationNs = x :=
        Int.mul_tdiv_cancel x (by omega)
      simp [Precision.asNanoseconds, hp, hw, ht]
  · -- the product overflows: the overflow check fails
    by_cases hp : p = .nanosecond
    · subst hp
      exact absurd ⟨by simpa [Precision.durationNs] using hx.1,
        by simpa [Precision.durationNs] using hx.2⟩ hnofit
    · have hrange := wrap64_range (x * p.durationNs)
      obtain ⟨k, hk⟩ := wrap64_sub_mul (x * p.durationNs)
      have hnf : x * p.durationNs < -(2 ^ 63) ∨ 2 ^ 63 ≤ x * p.durationNs := by
        rcases not_and_or.mp hnofit with h | h
        · left; omega
        · right; omega
      have hne : (wrap64 (x * p.durationNs)).tdiv p.durationNs ≠ x := by
        intro heq
        have hmod := Int.tmod_def (wrap64 (x * p.durationNs)) p.durationNs
        rw [heq] at hmod
        have hup : (wrap64 (x * p.durationNs)).tmod p.durationNs < p.durationNs :=
          Int.tmod_lt_of_pos _ hd0
        have hlow : -p.durationNs < (wrap64 (x * p.durationNs)).tmod p.durationNs :=
          int_tmod_lower _ _ hd0
        have hcm : p.durationNs * x = x * p.durationNs := mul_comm _ _
        rcases hnf with h | h <;> omega
      simp [Precision.asNanoseconds, hp, hne]

/-- Witness for C7: seconds precision, in-range and overflowing
products. -/
theorem claim_C7_asNanoseconds_witness :
    Precision.asNanoseconds .second 3 = (3000000000, true)
    ∧ Precision.asNanoseconds .second 9223372036854775807 = (0, false) :=
  ⟨(claim_C7_asNanoseconds .second 3 (by decide)).2.1 (by decide),
   (claim_C7_asNanoseconds .second 9223372036854775807 (by decide)).2.2 (by decide)⟩

/-! ### Claim C6: ParseValue range behavior -/

theorem natDecimalGo_parse : ∀ fuel n a, n < fuel →
    (natDecimalGo fuel n).foldl parseDigitsStep (some a)
      = some (a * 10 ^ (natDecimalGo fuel n).length + n) := by
  intro fuel
  induction fuel with
  | zero => intro n a h; omega
  | succ f ih =>
    intro n a h
    by_cases hn : n < 10
    · simp only [natDecimalGo, if_pos hn, List.foldl_cons, List.foldl_nil,
        List.length_cons, List.length_nil, parseDigitsStep]
      have hd : 48 ≤ 48 + n ∧ 48 + n ≤ 57 := by omega
      rw [if_pos hd]
      congr 1
      rw [pow_one]
      omega
    · have hrec := ih (n / 10) a (by omega)
      simp only [natDecimalGo, if_neg hn, List.foldl_append, List.length_append,
        List.length_cons, List.length_nil]
      rw [hrec]
      simp only [List.foldl_cons, List.foldl_nil, parseDigitsStep]
      have hd : 48 ≤ 48 + n % 10 ∧ 48 + n % 10 ≤ 57 := by
        have := Nat.mod_lt n (show 0 < 10 by omega)
        omega
      rw [if_pos hd]
      congr 1
      have hpow : 10 ^ ((natDecimalGo f (n / 10)).length + 1)
          = 10 ^ (natDecimalGo f (n / 10)).length * 10 := pow_succ 10 _
      rw [hpow]
      set L := 10 ^ (natDecimalGo f (n / 10)).length
      have h48 : 48 + n % 10 - 48 = n % 10 := by omega
      have hx : (a * L + n / 10) * 10 = a * (L * 10) + (n / 10) * 10 := by ring
      rw [h48, hx]
      omega

theorem natDecimalGo_digits : ∀ fuel n c, c ∈ natDecimalGo fuel n → 48 ≤ c ∧ c ≤ 57 := by
  intro fuel
  induction fuel with
  | zero => intro n c h; simp [natDecimalGo] at h
  | succ f ih =>
    intro n c h
    by_cases hn : n < 10
    · rw [natDecimalGo, if_pos hn] at h
      have hc : c = 48 + n := by simpa using h
      omega
    · rw [natDecimalGo, if_neg hn] at h
      rcases List.mem_append.mp h with h1 | h1
      · exact ih _ _ h1
      · have hc : c = 48 + n % 10 := by simpa using h1
        have := Nat.mod_lt n (show 0 < 10 by omega)
        omega

theorem natDecimal_ne_nil (n : Nat) : natDecimal n ≠ [] := by
  unfold natDecimal natDecimalGo
  by_cases hn : n < 10 <;> simp [hn]

theorem parseDigits_natDecimal (n : Nat) : parseDigitsGo (natDecimal n) = some n := by
  unfold parseDigitsGo
  rw [if_neg (by simpa using natDecimal_ne_nil n)]
  have h := natDecimalGo_parse (n + 1) n 0 (by omega)
  unfold natDecimal
  rw [h]
  congr 1
  omega

theorem parseIntBytes_decimal (v : Int) :
    parseIntBytes (intDecimal v)
      = if v < -(2 ^ 63) ∨ 2 ^ 63 - 1 < v then .error .range else .ok v := by
  by_cases hv : v < 0
  · rw [intDecimal, if_pos hv]
    show parseIntBytes (45 :: natDecimal v.natAbs) = _
    rw [parseIntBytes]
    have habs : (v.natAbs : Int) = -v := Int.ofNat_natAbs_of_nonpos (le_of_lt hv)
    simp [parseDigits_natDecimal, habs]
  · rw [intDecimal, if_neg hv]
    have hne := natDecimal_ne_nil v.toNat
    rcases hl : natDecimal v.toNat with _ | ⟨c, rest⟩
    · exact absurd hl hne
    · have hc : 48 ≤ c ∧ c ≤ 57 := by
        refine natDecimalGo_digits (v.toNat + 1) v.toNat c ?_
        show c ∈ natDecimal v.toNat
        rw [hl]
        exact List.mem_cons_self c rest
      rw [parseIntBytes]
      have h45 : ¬ c = 45 := by omega
      have h43 : ¬ c = 43 := by omega
      simp only [if_neg h45, if_neg h43]
      rw [← hl, parseDigits_natDecimal]
      have htn : (v.toNat : Int) = v := Int.toNat_of_nonneg (by omega)
      simp [htn]

theorem parseUintBytes_decimal (n : Nat) :
    parseUintBytes (natDecimal n)
      = if 2 ^ 64 - 1 < n then .error .range else .ok n := by
  rw [parseUintBytes, parseDigits_natDecimal]

theorem floatSpecial_cases (data : List Nat) (f : GoFloat)
    (h : floatSpecial data = some f) : (f.isInf || f.isNaN) = true := by
  simp only [floatSpecial] at h
  split_ifs at h <;> simp only [Option.some.injEq] at h <;> subst h <;> rfl

/-- Claim C6: `ParseValue(Int, ·)` succeeds on the decimal text of every
value in [−2^63, 2^63−1] and returns the `ErrValueOutOfRange` sentinel
on the decimal text of any value outside that range; the analogous
statement holds for Uint over [0, 2^64−1]; and `ParseValue(Float, ·)`
returns an error on any text denoting NaN or ±infinity. -/
theorem claim_C6_ParseValue :
    (∀ v : Int, -(2 ^ 63) ≤ v ∧ v ≤ 2 ^ 63 - 1 →
        ParseValue .int (intDecimal v) = .ok ⟨toU64 v, intSentinel⟩)
    ∧ (∀ v : Int, v < -(2 ^ 63) ∨ 2 ^ 63 - 1 < v →
        ParseValue .int (intDecimal v) = .error .outOfRange)
    ∧ (∀ n : Nat, n ≤ 2 ^ 64 - 1 →
        ParseValue .uint (natDecimal n) = .ok ⟨n, uintSentinel⟩)
    ∧ (∀ n : Nat, 2 ^ 64 - 1 < n →
        ParseValue .uint (natDecimal n) = .error .outOfRange)
    ∧ (∀ data f, floatSpecial data = some f →
        ParseValue .float data = .error (.nonNumber data)) := by
  refine ⟨fun v hv => ?_, fun v hv => ?_, fun n hn => ?_, fun n hn => ?_,
    fun data f hf => ?_⟩
  · rw [ParseValue, parseIntBytes_decimal, if_neg (by omega)]
  · rw [ParseValue, parseIntBytes_decimal, if_pos hv]
  · rw [ParseValue, parseUintBytes_decimal, if_neg (by omega)]
  · rw [ParseValue, parseUintBytes_decimal, if_pos hn]
  · rw [ParseValue, parseFloatBytes, hf]
    simp [floatSpecial_cases data f hf]

/-- Witness for C6: the largest signed 64-bit integer parses, one more
is out of range, and the text `NaN` is rejected. -/
theorem claim_C6_ParseValue_witness :
    ParseValue .int (intDecimal 9223372036854775807)
      = .ok ⟨toU64 9223372036854775807, intSentinel⟩
    ∧ ParseValue .int (intDecimal 9223372036854775808) = .error .outOfRange
    ∧ ParseValue .float [78, 97, 78] = .error (.nonNumber [78, 97, 78]) :=
  ⟨claim_C6_ParseValue.1 9223372036854775807 (by constructor <;> decide),
   claim_C6_ParseValue.2.1 9223372036854775808 (by right; decide),
   claim_C6_ParseValue.2.2.2.2 [78, 97, 78] .nan (by decide)⟩

/-! ### Claim C10: kind discrimination by sentinel identity -/

/-- Claim C10: every Value built by `ParseValue` or `NewValue` reports
exactly the kind it was constructed with; in particular a String value
whose content is a single byte such as `i` is still reported as String
(and `StringV` returns its bytes), because kind discrimination compares
the identity of the internal one-byte sentinel slices, never the byte
content. -/
theorem claim_C10_value_kind :
    (∀ k data v, ParseValue k data = .ok v → v.kind = k)
    ∧ (∀ x, (NewValue (.i x)).map Value.kind = some .int)
    ∧ (∀ x, (NewValue (.u x)).map Value.kind = some .uint)
    ∧ (∀ x, x.isNaN = false → x.isInf = false →
        (NewValue (.f x)).map Value.kind = some .float)
    ∧ (∀ x, (NewValue (.b x)).map Value.kind = some .bool)
    ∧ (∀ l, (NewValue (.s l)).map Value.kind = some .str)
    ∧ (∀ l, (NewValue (.bs l)).map Value.kind = some .str)
    ∧ (∀ l v, NewValue (.s l) = some v → v.stringV = some l) := by
  have hkind : ∀ l : List Nat, (Value.kind ⟨0, ⟨.heap, l⟩⟩) = .str := by
    intro l
    unfold Value.kind
    by_cases h : l.length ≠ 1 <;> simp [h]
  refine ⟨fun k data v h => ?_, fun x => rfl, fun x => rfl,
    fun x h1 h2 => by simp [NewValue, h1, h2, Value.kind, floatSentinel],
    fun x => rfl, fun l => by simp [NewValue, hkind l],
    fun l => by simp [NewValue, hkind l], fun l v h => ?_⟩
  · cases k with
    | int =>
      rw [ParseValue] at h
      rcases hp : parseIntBytes data with e | x
      · rw [hp] at h; cases e <;> simp at h
      · rw [hp] at h
        simp only [Except.ok.injEq] at h
        rw [← h]
        rfl
    | uint =>
      rw [ParseValue] at h
      rcases hp : parseUintBytes data with e | x
      · rw [hp] at h; cases e <;> simp at h
      · rw [hp] at h
        simp only [Except.ok.injEq] at h
        rw [← h]
        rfl
    | float =>
      rw [ParseValue] at h
      rcases hp : parseFloatBytes data with e | x
      · rw [hp] at h; cases e <;> simp at h
      · rw [hp] at h
        have h2 : (if (x.isInf || x.isNaN) = true then Except.error (VErr.nonNumber data)
            else Except.ok (⟨x.bits, floatSentinel⟩ : Value)) = Except.ok v := h
        by_cases hn : (x.isInf || x.isNaN) = true
        · rw [if_pos hn] at h2; simp at h2
        · rw [if_neg hn] at h2
          simp only [Except.ok.injEq] at h2
          rw [← h2]
          rfl
    | bool =>
      rw [ParseValue] at h
      rcases hp : parseBoolBytes data with _ | x
      · rw [hp] at h; simp at h
      · rw [hp] at h
        simp only [Except.ok.injEq] at h
        rw [← h]
        rfl
    | str =>
      rw [ParseValue] at h
      simp only [Except.ok.injEq] at h
      rw [← h]
      exact hkind data
    | unknown => rw [ParseValue] at h; simp at h
  · have hv : v = ⟨0, ⟨.heap, l⟩⟩ := by
      rw [NewValue] at h
      simpa using h.symm
    rw [hv, Value.stringV, hkind l]
    simp

/-- Witness for C10: the one-byte string `i` is reported as String both
through `ParseValue` and `NewValue`, and `StringV` returns it. -/
theorem claim_C10_value_kind_witness :
    Value.kind ⟨0, ⟨Alloc.heap, [105]⟩⟩ = ValueKind.str
    ∧ (NewValue (.s [105])).map Value.kind = some .str
    ∧ Value.stringV ⟨0, ⟨Alloc.heap, [105]⟩⟩ = some [105] :=
  ⟨claim_C10_value_kind.1 .str [105] ⟨0, ⟨Alloc.heap, [105]⟩⟩ rfl,
   claim_C10_value_kind.2.2.2.2.2.1 [105],
   claim_C10_value_kind.2.2.2.2.2.2.2 [105] ⟨0, ⟨Alloc.heap, [105]⟩⟩ rfl⟩

/-- Claim C5: when the first byte of a field value is not a double
quote, `t`, `T`, `f`, `F`, `-`, `.` or a decimal digit, strict mode
fails with the `field value has unrecognized type` error; only opt-in
lax mode instead consumes the run and yields it with kind Unknown. -/
theorem claim_C5_strict_unrecognized (t : Tok)
    (h34 : ¬ t.atB 0 = 34)
    (htf : ¬ (t.atB 0 = 116 ∨ t.atB 0 = 84 ∨ t.atB 0 = 102 ∨ t.atB 0 = 70))
    (hnum : ¬ (t.atB 0 = 45 ∨ t.atB 0 = 46 ∨ (48 ≤ t.atB 0 ∧ t.atB 0 ≤ 57))) :
    fieldValueSwitch false t = (.error .unrecognizedFieldType, { t with sect := .nl })
    ∧ fieldValueSwitch true t
        = (.ok (.unknown, (t.take fieldValChars).1), (t.take fieldValChars).2) := by
  constructor
  · rw [fieldValueSwitch]
    simp only [if_neg h34, if_neg htf, if_neg hnum]
    rfl
  · rw [fieldValueSwitch]
    simp only [if_neg h34, if_neg htf, if_neg hnum, if_true]

/-- Witness for C5 on a field value starting with `x`. -/
theorem claim_C5_strict_unrecognized_witness :
    fieldValueSwitch false (newTokenizerWithBytes [120, 121])
      = (.error .unrecognizedFieldType,
         { newTokenizerWithBytes [120, 121] with sect := .nl })
    ∧ fieldValueSwitch true (newTokenizerWithBytes [120, 121])
        = (.ok (.unknown, ((newTokenizerWithBytes [120, 121]).take fieldValChars).1),
           ((newTokenizerWithBytes [120, 121]).take fieldValChars).2) :=
  claim_C5_strict_unrecognized (newTokenizerWithBytes [120, 121])
    (by decide) (by decide) (by decide)

/-! ### Claim C8: readMore preserves the live window -/

theorem readMore_shape (t : STok) (h1 : t.r1 ≤ t.buf.length) :
    ((t.readMore).r0 = t.r0 ∧ (t.readMore).r1 = t.r1
        ∧ ∃ c, (t.readMore).buf = t.buf ++ c)
    ∨ ((t.readMore).r0 = 0 ∧ (t.readMore).r1 = t.r1 - t.r0
        ∧ ∃ c, (t.readMore).buf = t.buf.drop t.r0 ++ c) := by
  rw [STok.readMore]
  by_cases hc : t.complete
  · rw [if_pos hc]
    exact .inl ⟨by first | rfl | trivial, by first | rfl | trivial, [], by simp⟩
  · rw [if_neg hc]
    rw [STok.makeRoom]
    by_cases hroom : t.bufCap - t.buf.length < minRead
    · rw [if_pos hroom]
      by_cases hslide : t.r0 + (t.bufCap - t.buf.length) ≥ minRead
      · rw [if_pos hslide]
        rcases hsrc : t.src with _ | ⟨ev, rest⟩ <;> simp only [hsrc]
        · exact .inr ⟨by first | rfl | trivial, by first | rfl | trivial, [], by simp⟩
        · rcases hst : ev.status <;> simp only [hst] <;>
            exact .inr ⟨by first | rfl | trivial, by first | rfl | trivial, _, by rfl⟩
      · rw [if_neg hslide]
        rcases hsrc : t.src with _ | ⟨ev, rest⟩ <;> simp only [hsrc]
        · exact .inr ⟨by first | rfl | trivial, by first | rfl | trivial, [], by simp⟩
        · rcases hst : ev.status <;> simp only [hst] <;>
            exact .inr ⟨by first | rfl | trivial, by first | rfl | trivial, _, by rfl⟩
    · rw [if_neg hroom]
      rcases hsrc : t.src with _ | ⟨ev, rest⟩ <;> simp only [hsrc]
      · exact .inl ⟨by first | rfl | trivial, by first | rfl | trivial, [], by simp⟩
      · rcases hst : ev.status <;> simp only [hst] <;>
          exact .inl ⟨by first | rfl | trivial, by first | rfl | trivial, _, by rfl⟩

theorem window_slice_eq (w d bb : List Nat) (r0x : Nat)
    (hw : bb.drop r0x = w ++ d) (off nn : Nat) (h : off + nn ≤ w.length) :
    (bb.drop (r0x + off)).take nn = (w.drop off).take nn := by
  have h2 : bb.drop (r0x + off) = (bb.drop r0x).drop off := by
    rw [List.drop_drop]
  rw [h2, hw, List.drop_append_of_le_length (by omega)]
  rw [List.take_append_of_le_length (by simp; omega)]

/-- Claim C8: whenever `readMore` slides or grows the buffer, the live
window `buf[r0:len(buf)]` is preserved bytewise, the distance `r1−r0` is
unchanged, and the discarded prefix `buf[0:r0]` is never copied into the
new buffer: either the buffer is only appended to in place (indices
unchanged), or the window restarts at index 0 and the new buffer is
exactly the old live window plus newly read bytes.  Consequently any
sub-slice of the old live window is bytewise unchanged at its
window-relative position (slices returned since the last `reset` stay
bytewise equal; the escape scratch is not part of this state and is
untouched by `readMore`). -/
theorem claim_C8_readMore (t : STok) (h0 : t.r0 ≤ t.r1) (h1 : t.r1 ≤ t.buf.length) :
    (∃ d, (t.readMore).buf.drop (t.readMore).r0 = t.buf.drop t.r0 ++ d)
    ∧ (t.readMore).r1 - (t.readMore).r0 = t.r1 - t.r0
    ∧ (((t.readMore).r0 = t.r0 ∧ (t.readMore).r1 = t.r1
          ∧ ∃ d, (t.readMore).buf = t.buf ++ d)
        ∨ ((t.readMore).r0 = 0 ∧ ∃ d, (t.readMore).buf = t.buf.drop t.r0 ++ d))
    ∧ ∀ off nn, off + nn ≤ t.buf.length - t.r0 →
        ((t.readMore).buf.drop ((t.readMore).r0 + off)).take nn
          = (t.buf.drop (t.r0 + off)).take nn := by
  have hr0len : t.r0 ≤ t.buf.length := le_trans h0 h1
  have hold : ∀ off nn : Nat, (t.buf.drop (t.r0 + off)).take nn
      = ((t.buf.drop t.r0).drop off).take nn := by
    intro off nn
    rw [List.drop_drop]
  rcases readMore_shape t h1 with ⟨hr0, hr1, c, hbuf⟩ | ⟨hr0, hr1, c, hbuf⟩
  · have hwin : (t.readMore).buf.drop (t.readMore).r0 = t.buf.drop t.r0 ++ c := by
      rw [hbuf, hr0, List.drop_append_of_le_length hr0len]
    refine ⟨⟨c, hwin⟩, by omega, .inl ⟨hr0, hr1, c, hbuf⟩, fun off nn hoff => ?_⟩
    rw [hold off nn]
    refine window_slice_eq _ c _ _ hwin off nn ?_
    rw [List.length_drop]
    omega
  · have hwin : (t.readMore).buf.drop (t.readMore).r0 = t.buf.drop t.r0 ++ c := by
      rw [hbuf, hr0, List.drop_zero]
    refine ⟨⟨c, hwin⟩, by omega, .inr ⟨hr0, c, hbuf⟩, fun off nn hoff => ?_⟩
    rw [hold off nn]
    refine window_slice_eq _ c _ _ hwin off nn ?_
    rw [List.length_drop]
    omega

/-- Witness for C8 at a tokenizer mid-entry with a pending source chunk
(the buffer must grow). -/
theorem claim_C8_readMore_witness :
    ((⟨[1, 2, 3], 4, 1, 2, false, false, [⟨[7, 8], .ok⟩]⟩ : STok).readMore).r1
        - ((⟨[1, 2, 3], 4, 1, 2, false, false, [⟨[7, 8], .ok⟩]⟩ : STok).readMore).r0 = 2 - 1
    ∧ (((⟨[1, 2, 3], 4, 1, 2, false, false, [⟨[7, 8], .ok⟩]⟩ : STok).readMore).buf.drop
        (((⟨[1, 2, 3], 4, 1, 2, false, false, [⟨[7, 8], .ok⟩]⟩ : STok).readMore).r0 + 0)).take 1
        = (([1, 2, 3] : List Nat).drop (1 + 0)).take 1 :=
  ⟨(claim_C8_readMore ⟨[1, 2, 3], 4, 1, 2, false, false, [⟨[7, 8], .ok⟩]⟩
      (by decide) (by decide)).2.1,
   (claim_C8_readMore ⟨[1, 2, 3], 4, 1, 2, false, false, [⟨[7, 8], .ok⟩]⟩
      (by decide) (by decide)).2.2.2 0 1 (by decide)⟩

/-! ### The ensure loop (for claim C3) -/

theorem readMore_preserves_inv (t : STok) (h0 : t.r0 ≤ t.r1) (h1 : t.r1 ≤ t.buf.length) :
    (t.readMore).r0 ≤ (t.readMore).r1 ∧ (t.readMore).r1 ≤ (t.readMore).buf.length := by
  rcases readMore_shape t h1 with ⟨hr0, hr1, c, hbuf⟩ | ⟨hr0, hr1, c, hbuf⟩ <;>
    rw [hr0, hr1, hbuf] <;> simp <;> omega

theorem readMore_measure (t : STok) (hc : ¬ t.complete = true) :
    (t.readMore).src.length + (if (t.readMore).complete then 0 else 1)
      < t.src.length + 1 := by
  rw [STok.readMore, if_neg hc, STok.makeRoom]
  by_cases h1 : t.bufCap - t.buf.length < minRead
  · rw [if_pos h1]
    by_cases h2 : t.r0 + (t.bufCap - t.buf.length) ≥ minRead
    · rw [if_pos h2]
      rcases hsrc : t.src with _ | ⟨ev, rest⟩
      · simp [hsrc]
      · rcases hst : ev.status <;> simp [hsrc, hst, hc] <;> omega
    · rw [if_neg h2]
      rcases hsrc : t.src with _ | ⟨ev, rest⟩
      · simp [hsrc]
      · rcases hst : ev.status <;> simp [hsrc, hst, hc] <;> omega
  · rw [if_neg h1]
    rcases hsrc : t.src with _ | ⟨ev, rest⟩
    · simp [hsrc]
    · rcases hst : ev.status <;> simp [hsrc, hst, hc] <;> omega

theorem ensure1Go_spec : ∀ (fuel : Nat) (t : STok) (n : Nat),
    t.src.length + (if t.complete then 0 else 1) ≤ fuel →
    ¬ (t.r1 + n ≤ t.buf.length) →
    ((ensure1Go fuel t n).1 = true ↔
        (ensure1Go fuel t n).2.r1 + n ≤ (ensure1Go fuel t n).2.buf.length)
    ∧ ((ensure1Go fuel t n).1 = false → (ensure1Go fuel t n).2.complete = true)
    ∧ (t.r0 ≤ t.r1 → t.r1 ≤ t.buf.length →
        (ensure1Go fuel t n).2.r0 ≤ (ensure1Go fuel t n).2.r1
        ∧ (ensure1Go fuel t n).2.r1 ≤ (ensure1Go fuel t n).2.buf.length) := by
  intro fuel
  induction fuel with
  | zero =>
    intro t n hmu hne
    have hc : t.complete = true := by
      by_cases h : t.complete = true
      · exact h
      · rw [if_neg h] at hmu; omega
    simp only [ensure1Go]
    exact ⟨by constructor <;> intro h <;> simp_all, fun _ => hc, fun a b => ⟨a, b⟩⟩
  | succ f ih =>
    intro t n hmu hne
    by_cases hc : t.complete = true
    · simp only [ensure1Go, if_pos hc]
      exact ⟨by constructor <;> intro h <;> simp_all, fun _ => hc, fun a b => ⟨a, b⟩⟩
    · simp only [ensure1Go, if_neg hc]
      by_cases hen : (t.readMore).r1 + n ≤ (t.readMore).buf.length
      · simp only [if_pos hen]
        exact ⟨by simp [hen], by simp, fun a b => readMore_preserves_inv t a b⟩
      · simp only [if_neg hen]
        have hmu' := readMore_measure t hc
        rw [if_neg hc] at hmu
        refine ⟨(ih (t.readMore) n (by omega) hen).1, (ih (t.readMore) n (by omega) hen).2.1,
          fun a b => ?_⟩
        have hinv := readMore_preserves_inv t a b
        exact (ih (t.readMore) n (by omega) hen).2.2 hinv.1 hinv.2

theorem scanSet_le (set : ByteSet) : ∀ l : List Nat, scanSet set l ≤ l.length := by
  intro l
  induction l with
  | nil => simp [scanSet]
  | cons c rest ih =>
    simp only [scanSet, List.length_cons]
    split <;> omega

theorem inv_take (t : Tok) (set : ByteSet) (h : t.Inv) : ((t.take set).2).Inv := by
  obtain ⟨h0, h1⟩ := h
  have hs := scanSet_le set (t.buf.drop t.r1)
  rw [List.length_drop] at hs
  exact ⟨by simp [Tok.take]; omega, by simp [Tok.take]; omega⟩

theorem inv_takeFieldSpace (t : Tok) (h : t.Inv) : (t.takeFieldSpace).Inv :=
  inv_take t fieldSeparatorSpace h

theorem inv_reset (t : Tok) (h : t.Inv) : (t.reset).Inv := by
  obtain ⟨h0, h1⟩ := h
  unfold Tok.reset
  split <;> exact ⟨by simp <;> omega, by simp <;> omega⟩

theorem inv_advance_ensure (t : Tok) (n : Nat) (h : t.Inv) (he : t.ensureB n = true) :
    (t.advance n).Inv := by
  obtain ⟨h0, h1⟩ := h
  simp only [Tok.ensureB, decide_eq_true_eq] at he
  exact ⟨by simp [Tok.advance]; omega, by simp [Tok.advance]; omega⟩

theorem atB_lt (t : Tok) (i : Nat) (h : ¬ t.atB i = 0) : t.r1 + i < t.buf.length := by
  by_cases hl : t.r1 + i < t.buf.length
  · exact hl
  · exfalso
    apply h
    simp only [Tok.atB]
    exact List.getD_eq_default _ _ (by omega)

theorem inv_advance_atB (t : Tok) (h : t.Inv) (ha : ¬ t.atB 0 = 0) :
    (t.advance 1).Inv := by
  obtain ⟨h0, h1⟩ := h
  have := atB_lt t 0 ha
  exact ⟨by simp [Tok.advance]; omega, by simp [Tok.advance]; omega⟩

theorem takeEscGo_bounds (set : ByteSet) (escT : Nat → Nat) (sk : Bool)
    (buf : List Nat) : ∀ fuel pos su acc, pos ≤ buf.length → su ≤ pos →
    pos ≤ (takeEscGo set escT sk buf fuel pos su acc).1
    ∧ (takeEscGo set escT sk buf fuel pos su acc).1 ≤ buf.length := by
  intro fuel
  induction fuel with
  | zero => intro pos su acc hp hsu; simp [takeEscGo]; omega
  | succ f ih =>
    intro pos su acc hp hsu
    simp only [takeEscGo]
    split_ifs with h1 h2 h3 h4 h5 h6
    · have := ih (pos + 1) su acc (by omega) (by omega)
      constructor <;> omega
    · simp; omega
    · have := ih (pos + 1) su acc (by omega) (by omega)
      constructor <;> omega
    · have := ih (pos + 2) su acc (by omega) (by omega)
      constructor <;> omega
    · have := ih (pos + 2) (pos + 2)
        (acc ++ listExtract buf su pos ++ [escT (buf.getD (pos + 1) 0)])
        (by omega) (by omega)
      constructor <;> omega
    · simp; omega
    · simp; omega

theorem inv_takeEsc (t : Tok) (set : ByteSet) (escT : Nat → Nat) (h : t.Inv) :
    ((t.takeEsc set escT).2).Inv := by
  obtain ⟨h0, h1⟩ := h
  have hb := takeEscGo_bounds set escT t.skipping t.buf (t.buf.length + 1)
    t.r1 t.r1 [] h1 (le_refl _)
  simp only [Tok.takeEsc]
  split <;> exact ⟨by simp; omega, by simp; omega⟩

theorem inv_skipEmptyLinesGo : ∀ fuel (t : Tok), t.Inv → (skipEmptyLinesGo fuel t).Inv := by
  intro fuel
  induction fuel with
  | zero => intro t h; simpa [skipEmptyLinesGo] using h
  | succ f ih =>
    intro t h
    simp only [skipEmptyLinesGo]
    have h1 : (t.takeFieldSpace).Inv := inv_takeFieldSpace t h
    split_ifs with hc hn hnl
    · exact inv_take _ notNewline h1
    · simp only [ne_eq, not_not] at hn
      exact ih _ (inv_advance_atB _ (inv_take _ notNewline h1) (by rw [hn]; decide))
    · exact ih _ (inv_advance_atB _ h1 (by rw [hnl]; decide))
    · exact h1

theorem inv_skipEmptyLines (t : Tok) (h : t.Inv) : (t.skipEmptyLines).Inv :=
  inv_skipEmptyLinesGo _ t h

theorem inv_advanceTagComma (t : Tok) (h : t.Inv) : ((t.advanceTagComma).2).Inv := by
  simp only [Tok.advanceTagComma]
  split_ifs with h1 h2 h3 h4 <;> try exact h
  all_goals
    have ha : (t.advance 1).Inv :=
      inv_advance_ensure t 1 h (by revert h1; simp [Tok.ensureB])
  · exact ha
  · exact ha
  · exact ha

theorem inv_failWith (t : Tok) (e : Err) {α : Type} : t.Inv → ((t.failWith e : Except Err α × Tok).2).Inv := by
  intro h; simpa [Tok.failWith, Tok.Inv] using h

theorem inv_with_sect (t : Tok) (s : Section) (h : t.Inv) :
    ({ t with sect := s } : Tok).Inv := h

theorem inv_consumeLine (t : Tok) (h : t.Inv) : (t.consumeLine).Inv := by
  simp only [Tok.consumeLine]
  have h1 := inv_take t notNewline h
  have h2 := inv_reset _ h1
  split_ifs with he
  · exact inv_advance_ensure _ 1 h2 he
  · exact h2

theorem inv_measurement (t : Tok) (h : t.Inv) : ((t.measurement).2).Inv := by
  rcases hs : t.sect <;> simp only [Tok.measurement, hs] <;> try exact h
  have h1 := inv_reset _ (inv_skipEmptyLines t h)
  have h2 := inv_takeEsc _ measurementChars measurementEscapes.revTable h1
  split_ifs with hm
  · exact inv_failWith _ _ h2
  · have hin := inv_advanceTagComma _ h2
    split
    all_goals rename_i heq
    all_goals rw [heq] at hin
    all_goals simpa [Tok.Inv] using hin

theorem inv_advTagGo : ∀ fuel (t : Tok), t.Inv → ((advTagGo fuel t).2).Inv := by
  intro fuel
  induction fuel with
  | zero => intro t h; exact h
  | succ f ih =>
    intro t h
    rcases hs : t.sect
    case measurement =>
      simp only [advTagGo, hs]
      have hm := inv_measurement t h
      split
      all_goals rename_i heq
      · rw [heq] at hm; simpa [Tok.Inv] using hm
      · rw [heq] at hm; exact ih _ hm
    all_goals simp only [advTagGo, hs]
    all_goals exact h

theorem inv_advanceToTag (t : Tok) (h : t.Inv) : ((t.advanceToTag).2).Inv := by
  simp only [Tok.advanceToTag]
  split_ifs <;> first | exact h | exact inv_advTagGo 8 _ h

theorem inv_nextTagCore (t : Tok) (h : t.Inv) : ((t.nextTagCore).2).Inv := by
  simp only [Tok.nextTagCore]
  split_ifs with h1 h2 h3 h4 h5
  · exact inv_takeFieldSpace t h
  · exact inv_failWith _ _ (inv_takeEsc t _ _ h)
  · exact inv_failWith _ _ (inv_takeEsc t _ _ h)
  · push_neg at h3
    exact inv_failWith _ _ (inv_takeEsc _ _ _
      (inv_advance_ensure _ 1 (inv_takeEsc t _ _ h) h3.1))
  · push_neg at h3
    have hin := inv_advanceTagComma
      (((t.takeEsc tagKeyChars tagKeyEscapes.revTable).2.advance 1).takeEsc
          tagValChars tagValEscapes.revTable).2
      (inv_takeEsc ((t.takeEsc tagKeyChars tagKeyEscapes.revTable).2.advance 1)
        tagValChars tagValEscapes.revTable
        (inv_advance_ensure (t.takeEsc tagKeyChars tagKeyEscapes.revTable).2 1
          (inv_takeEsc t tagKeyChars tagKeyEscapes.revTable h) h3.1))
    split
    all_goals rename_i heq
    all_goals rw [heq] at hin
    all_goals simpa [Tok.Inv] using hin
  · push_neg at h3
    exact inv_with_sect
      (((t.takeEsc tagKeyChars tagKeyEscapes.revTable).2.advance 1).takeEsc
          tagValChars tagValEscapes.revTable).2 .field
      (inv_takeEsc ((t.takeEsc tagKeyChars tagKeyEscapes.revTable).2.advance 1)
        tagValChars tagValEscapes.revTable
        (inv_advance_ensure (t.takeEsc tagKeyChars tagKeyEscapes.revTable).2 1
          (inv_takeEsc t tagKeyChars tagKeyEscapes.revTable h) h3.1))

theorem inv_nextTag (t : Tok) (h : t.Inv) : ((t.nextTag).2).Inv := by
  simp only [Tok.nextTag]
  have ha := inv_advanceToTag t h
  split
  all_goals rename_i heq
  all_goals rw [heq] at ha
  · exact ha
  · exact ha
  · exact inv_nextTagCore _ ha

theorem inv_consumeTagsGo : ∀ fuel (t : Tok), t.Inv → ((consumeTagsGo fuel t).2).Inv := by
  intro fuel
  induction fuel with
  | zero => intro t h; exact h
  | succ f ih =>
    intro t h
    simp only [consumeTagsGo]
    have hn := inv_nextTag t h
    split
    all_goals rename_i heq
    all_goals rw [heq] at hn
    · exact hn
    · exact hn
    · exact ih _ hn

theorem inv_consumeTags (t : Tok) (h : t.Inv) : ((t.consumeTags).2).Inv :=
  inv_consumeTagsGo _ t h

theorem inv_advFieldGo : ∀ fuel (t : Tok), t.Inv → ((advFieldGo fuel t).2).Inv := by
  intro fuel
  induction fuel with
  | zero => intro t h; exact h
  | succ f ih =>
    intro t h
    rcases hs : t.sect
    case measurement =>
      simp only [advFieldGo, hs]
      have hm := inv_measurement t h
      split
      all_goals rename_i heq
      · rw [heq] at hm; simpa [Tok.Inv] using hm
      · rw [heq] at hm; exact ih _ hm
    case tag =>
      simp only [advFieldGo, hs]
      have hm := inv_consumeTags t h
      split
      all_goals rename_i heq
      · rw [heq] at hm; simpa [Tok.Inv] using hm
      · rw [heq] at hm; exact ih _ hm
    all_goals simp only [advFieldGo, hs]
    all_goals exact h

theorem inv_advanceToField (t : Tok) (h : t.Inv) : ((t.advanceToField).2).Inv := by
  simp only [Tok.advanceToField]
  split_ifs <;> first | exact h | exact inv_advFieldGo 8 _ h

theorem inv_fieldEnd (t : Tok) (key : List Nat) (kind : ValueKind) (v : List Nat)
    (h : t.Inv) : ((t.fieldEnd key kind v).2).Inv := by
  simp only [Tok.fieldEnd]
  split_ifs <;>
    first
      | exact inv_with_sect _ _ h
      | exact inv_failWith _ _ h
      | exact inv_advance_ensure t 1 h (by simp_all)
      | exact inv_with_sect _ _ (inv_takeFieldSpace t h)

set_option maxHeartbeats 1600000 in
theorem inv_nextFieldCore (t : Tok) (h : t.Inv) : ((t.nextFieldCore).2).Inv := by
  simp only [Tok.nextFieldCore]
  set t1 := (t.takeEsc fieldKeyChars fieldKeyEscapes.revTable).2 with ht1
  have h1 : t1.Inv := inv_takeEsc t _ _ h
  split_ifs
  all_goals try exact inv_failWith _ _ h1
  all_goals have h2 : (t1.advance 1).Inv := inv_advance_ensure t1 1 h1 (by assumption)
  all_goals try exact inv_failWith _ _ h2
  all_goals try exact inv_fieldEnd _ _ _ _ (inv_take _ fieldValChars h2)
  all_goals set t4 := ((t1.advance 1).advance 1).takeEsc fieldStringValChars fieldStringValEscapes.revTable with ht4
  all_goals have h4 : t4.2.Inv := inv_takeEsc _ _ _ (inv_advance_ensure _ 1 h2 (by assumption))
  all_goals try exact inv_failWith _ _ h4
  all_goals try exact inv_fieldEnd _ _ _ _ (inv_advance_ensure _ 1 h4 (by assumption))
  all_goals split
  all_goals rename_i heq
  all_goals exact inv_fieldEnd _ _ _ _ (inv_take _ fieldValChars h2)

theorem inv_nextFieldBytes (t : Tok) (h : t.Inv) : ((t.nextFieldBytes).2).Inv := by
  simp only [Tok.nextFieldBytes]
  have ha := inv_advanceToField t h
  split
  all_goals rename_i heq
  all_goals rw [heq] at ha
  · exact ha
  · exact ha
  · exact inv_nextFieldCore _ ha

theorem inv_consumeFieldsGo : ∀ fuel (t : Tok), t.Inv → ((consumeFieldsGo fuel t).2).Inv := by
  intro fuel
  induction fuel with
  | zero => intro t h; exact h
  | succ f ih =>
    intro t h
    simp only [consumeFieldsGo]
    have hn := inv_nextFieldBytes t h
    split
    all_goals rename_i heq
    all_goals rw [heq] at hn
    · exact hn
    · exact hn
    · exact ih _ hn

theorem inv_consumeFields (t : Tok) (h : t.Inv) : ((t.consumeFields).2).Inv :=
  inv_consumeFieldsGo _ t h

theorem inv_advTimeGo : ∀ fuel (t : Tok), t.Inv → ((advTimeGo fuel t).2).Inv := by
  intro fuel
  induction fuel with
  | zero => intro t h; exact h
  | succ f ih =>
    intro t h
    rcases hs : t.sect
    case measurement =>
      simp only [advTimeGo, hs]
      have hm := inv_measurement t h
      split
      all_goals rename_i heq
      · rw [heq] at hm; simpa [Tok.Inv] using hm
      · rw [heq] at hm; exact ih _ hm
    case tag =>
      simp only [advTimeGo, hs]
      have hm := inv_consumeTags t h
      split
      all_goals rename_i heq
      · rw [heq] at hm; simpa [Tok.Inv] using hm
      · rw [heq] at hm; exact ih _ hm
    case field =>
      simp only [advTimeGo, hs]
      have hm := inv_consumeFields t h
      split
      all_goals rename_i heq
      · rw [heq] at hm; simpa [Tok.Inv] using hm
      · rw [heq] at hm; exact ih _ hm
    all_goals simp only [advTimeGo, hs]
    all_goals exact h

theorem inv_advanceToTime (t : Tok) (h : t.Inv) : ((t.advanceToTime).2).Inv := by
  simp only [Tok.advanceToTime]
  split_ifs <;> first | exact h | exact inv_advTimeGo 8 _ h

set_option maxHeartbeats 1600000 in
theorem inv_timeCore (t : Tok) (h : t.Inv) : ((t.timeCore).2).Inv := by
  simp only [Tok.timeCore]
  split_ifs
  all_goals try exact inv_with_sect _ _ (inv_with_sect _ _ (inv_take t timeChars h))
  all_goals try exact inv_with_sect _ _ (inv_take t timeChars h)
  all_goals try exact inv_failWith _ _ (inv_take _ notNewline (inv_with_sect _ _ (inv_take t timeChars h)))
  all_goals try exact inv_failWith _ _ (inv_take _ notNewline (inv_take t timeChars h))
  all_goals try exact inv_with_sect _ _ (inv_takeFieldSpace _ (inv_with_sect _ _ (inv_take t timeChars h)))
  all_goals try exact inv_with_sect _ _ (inv_takeFieldSpace _ (inv_take t timeChars h))
  all_goals try exact inv_failWith _ _ (inv_take _ notNewline (inv_takeFieldSpace _ (inv_with_sect _ _ (inv_take t timeChars h))))
  all_goals try exact inv_failWith _ _ (inv_take _ notNewline (inv_takeFieldSpace _ (inv_take t timeChars h)))
  all_goals try exact inv_with_sect _ _ (inv_advance_ensure _ 1 (inv_takeFieldSpace _ (inv_with_sect _ _ (inv_take t timeChars h))) (by assumption))
  all_goals exact inv_with_sect _ _ (inv_advance_ensure _ 1 (inv_takeFieldSpace _ (inv_take t timeChars h)) (by assumption))

theorem inv_timeBytes (t : Tok) (h : t.Inv) : ((t.timeBytes).2).Inv := by
  simp only [Tok.timeBytes]
  have ha := inv_advanceToTime t h
  split
  all_goals rename_i heq
  all_goals rw [heq] at ha
  · exact ha
  · exact ha
  · exact inv_timeCore _ ha

theorem inv_advEndGo : ∀ fuel (t : Tok), t.Inv → ((advEndGo fuel t).2).Inv := by
  intro fuel
  induction fuel with
  | zero => intro t h; exact h
  | succ f ih =>
    intro t h
    rcases hs : t.sect
    case measurement =>
      simp only [advEndGo, hs]
      have hm := inv_measurement t h
      split
      all_goals rename_i heq
      · rw [heq] at hm; simpa [Tok.Inv] using hm
      · rw [heq] at hm; exact ih _ hm
    case tag =>
      simp only [advEndGo, hs]
      have hm := inv_consumeTags t h
      split
      all_goals rename_i heq
      · rw [heq] at hm; simpa [Tok.Inv] using hm
      · rw [heq] at hm; exact ih _ hm
    case field =>
      simp only [advEndGo, hs]
      have hm := inv_consumeFields t h
      split
      all_goals rename_i heq
      · rw [heq] at hm; simpa [Tok.Inv] using hm
      · rw [heq] at hm; exact ih _ hm
    case time =>
      simp only [advEndGo, hs]
      have hm := inv_timeBytes t h
      split
      all_goals rename_i heq
      · rw [heq] at hm; simpa [Tok.Inv] using hm
      · rw [heq] at hm; exact ih _ hm
    case nl =>
      simp only [advEndGo, hs]
      exact ih _ (inv_consumeLine t h)
    case endSec =>
      simp only [advEndGo, hs]
      exact h

theorem inv_advanceToEnd (t : Tok) (h : t.Inv) : ((t.advanceToEnd).2).Inv := by
  simp only [Tok.advanceToEnd]
  split_ifs <;> first | exact h | exact inv_advEndGo 8 _ h

theorem inv_next (t : Tok) (h : t.Inv) : ((t.next).2).Inv := by
  simp only [Tok.next]
  exact inv_reset _ (inv_with_sect _ _
    (inv_skipEmptyLines _ (inv_advanceToEnd t h)))

theorem ensure_spec (s : STok) (n : Nat) (h0 : s.r0 ≤ s.r1) (h1 : s.r1 ≤ s.buf.length) :
    ((s.ensure n).1 = true ↔ (s.ensure n).2.r1 + n ≤ (s.ensure n).2.buf.length)
    ∧ ((s.ensure n).1 = false → (s.ensure n).2.complete = true)
    ∧ ((s.ensure n).2.r0 ≤ (s.ensure n).2.r1
        ∧ (s.ensure n).2.r1 ≤ (s.ensure n).2.buf.length) := by
  unfold STok.ensure
  by_cases hc : s.r1 + n ≤ s.buf.length
  · rw [if_pos hc]
    exact ⟨by simpa using hc, by simp, h0, h1⟩
  · rw [if_neg hc]
    have hs := ensure1Go_spec (s.src.length + 2) s n (by split_ifs <;> omega) hc
    exact ⟨hs.1, hs.2.1, hs.2.2 h0 h1⟩

/-- **C3.** Every Tokenizer operation preserves the buffer-index
invariant `0 ≤ r0 ≤ r1 ≤ len(buf)` (stated for the scanning primitives
`take`, `takeEsc`, `reset` and `skipEmptyLines` and for the public
section methods `Measurement`, `NextTag`, `NextFieldBytes`, `TimeBytes`
and `Next`); and in the streaming reader, `ensure(n)` returns true if
and only if `r1 + n ≤ len(buf)` holds on return, whenever it returns
false the `complete` flag has been set, and it too preserves the
invariant — so `advance` is never called past the end of the buffer. -/
theorem claim_C3_invariant_and_ensure (t : Tok) (set : ByteSet) (escT : Nat → Nat)
    (s : STok) (n : Nat) (ht : t.Inv) (h0 : s.r0 ≤ s.r1) (h1 : s.r1 ≤ s.buf.length) :
    (((t.take set).2).Inv ∧ ((t.takeEsc set escT).2).Inv ∧ (t.reset).Inv
      ∧ (t.skipEmptyLines).Inv ∧ ((t.measurement).2).Inv ∧ ((t.nextTag).2).Inv
      ∧ ((t.nextFieldBytes).2).Inv ∧ ((t.timeBytes).2).Inv ∧ ((t.next).2).Inv)
    ∧ ((s.ensure n).1 = true ↔ (s.ensure n).2.r1 + n ≤ (s.ensure n).2.buf.length)
    ∧ ((s.ensure n).1 = false → (s.ensure n).2.complete = true)
    ∧ ((s.ensure n).2.r0 ≤ (s.ensure n).2.r1
        ∧ (s.ensure n).2.r1 ≤ (s.ensure n).2.buf.length) :=
  ⟨⟨inv_take t set ht, inv_takeEsc t set escT ht, inv_reset t ht, inv_skipEmptyLines t ht,
    inv_measurement t ht, inv_nextTag t ht, inv_nextFieldBytes t ht, inv_timeBytes t ht,
    inv_next t ht⟩,
   ensure_spec s n h0 h1⟩

/-- Witness for C3 at the entry `m x=1` and a streaming reader that must
read one more chunk. -/
theorem claim_C3_invariant_and_ensure_witness :
    (newTokenizerWithBytes [109, 32, 120, 61, 49]).Inv
    ∧ (((newTokenizerWithBytes [109, 32, 120, 61, 49]).next).2).Inv
    ∧ ((((⟨[1, 2, 3], 4, 1, 2, false, false, [⟨[7, 8], ReadStatus.ok⟩]⟩ : STok).ensure 3).1 = true)
        ↔ (((⟨[1, 2, 3], 4, 1, 2, false, false, [⟨[7, 8], ReadStatus.ok⟩]⟩ : STok).ensure 3).2.r1 + 3
            ≤ ((⟨[1, 2, 3], 4, 1, 2, false, false, [⟨[7, 8], ReadStatus.ok⟩]⟩ : STok).ensure 3).2.buf.length)) :=
  ⟨by decide,
   (claim_C3_invariant_and_ensure (newTokenizerWithBytes [109, 32, 120, 61, 49])
      timeChars (fun b => b) ⟨[1, 2, 3], 4, 1, 2, false, false, [⟨[7, 8], ReadStatus.ok⟩]⟩ 3
      (by decide) (by decide) (by decide)).1.2.2.2.2.2.2.2.2,
   (claim_C3_invariant_and_ensure (newTokenizerWithBytes [109, 32, 120, 61, 49])
      timeChars (fun b => b) ⟨[1, 2, 3], 4, 1, 2, false, false, [⟨[7, 8], ReadStatus.ok⟩]⟩ 3
      (by decide) (by decide) (by decide)).2.1⟩

/-! ### Claim C4: syntax-error recovery -/

theorem err_sect_advanceTagComma (t : Tok) (e : Err) :
    (t.advanceTagComma).1 = some e → ((t.advanceTagComma).2).sect = .nl := by
  simp only [Tok.advanceTagComma]
  split_ifs <;> intro h <;> first | rfl | exact absurd h (by simp)

theorem err_sect_measurement (t : Tok) (e : Err) :
    (t.measurement).1 = .error e → ((t.measurement).2).sect = .nl := by
  rcases hs : t.sect <;> simp only [Tok.measurement, hs]
  case measurement =>
    split_ifs
    · exact fun _ => rfl
    · split
      all_goals rename_i heq
      · intro h
        have h4 := err_sect_advanceTagComma _ _ (by rw [heq])
        rw [heq] at h4
        exact h4
      · intro h
        exact absurd h (by simp)
  all_goals intro h
  all_goals exact absurd h (by simp)

theorem err_sect_advTagGo : ∀ fuel (t : Tok) (e : Err), ¬ e = Err.noFuel →
    (advTagGo fuel t).1 = .error e → ((advTagGo fuel t).2).sect = .nl := by
  intro fuel
  induction fuel with
  | zero =>
    intro t e hne h
    simp [advTagGo] at h
    first | exact absurd h.symm hne | exact absurd h hne
  | succ f ih =>
    intro t e hne
    rcases hs : t.sect <;> simp only [advTagGo, hs]
    case measurement =>
      split
      all_goals rename_i heq
      · intro h
        have hm := err_sect_measurement t _ (by rw [heq])
        rw [heq] at hm
        exact hm
      · exact ih _ _ hne
    all_goals intro h
    all_goals exact absurd h (by simp)

theorem err_sect_advanceToTag (t : Tok) (e : Err) (hne : ¬ e = Err.noFuel) :
    (t.advanceToTag).1 = .error e → ((t.advanceToTag).2).sect = .nl := by
  simp only [Tok.advanceToTag]
  split_ifs
  · intro h; exact absurd h (by simp)
  · intro h; exact absurd h (by simp)
  · exact err_sect_advTagGo 8 _ e hne

theorem err_sect_nextTagCore (t : Tok) (e : Err) :
    (t.nextTagCore).1 = .error e → ((t.nextTagCore).2).sect = .nl := by
  simp only [Tok.nextTagCore]
  split_ifs
  all_goals try (intro h; exact absurd h (by simp))
  all_goals try exact fun _ => rfl
  all_goals split
  all_goals rename_i heq
  · intro h
    have h4 := err_sect_advanceTagComma _ _ (by rw [heq])
    rw [heq] at h4
    exact h4
  · intro h
    exact absurd h (by simp)

theorem err_sect_nextTag (t : Tok) (e : Err) (hne : ¬ e = Err.noFuel) :
    (t.nextTag).1 = .error e → ((t.nextTag).2).sect = .nl := by
  simp only [Tok.nextTag]
  split
  all_goals rename_i heq
  · intro h
    simp only [] at h
    cases h
    have ha := err_sect_advanceToTag t e hne (by rw [heq])
    rw [heq] at ha
    exact ha
  · intro h; exact absurd h (by simp)
  · exact err_sect_nextTagCore _ e

theorem err_sect_consumeTagsGo : ∀ fuel (t : Tok) (e : Err), ¬ e = Err.noFuel →
    (consumeTagsGo fuel t).1 = .error e → ((consumeTagsGo fuel t).2).sect = .nl := by
  intro fuel
  induction fuel with
  | zero =>
    intro t e hne h
    simp [consumeTagsGo] at h
    first | exact absurd h.symm hne | exact absurd h hne
  | succ f ih =>
    intro t e hne
    simp only [consumeTagsGo]
    split
    all_goals rename_i heq
    · intro h
      simp only [] at h
      cases h
      have hn := err_sect_nextTag t e hne (by rw [heq])
      rw [heq] at hn
      exact hn
    · intro h; exact absurd h (by simp)
    · exact ih _ _ hne

theorem err_sect_consumeTags (t : Tok) (e : Err) (hne : ¬ e = Err.noFuel) :
    (t.consumeTags).1 = .error e → ((t.consumeTags).2).sect = .nl :=
  err_sect_consumeTagsGo _ t e hne

theorem err_sect_advFieldGo : ∀ fuel (t : Tok) (e : Err), ¬ e = Err.noFuel →
    (advFieldGo fuel t).1 = .error e → ((advFieldGo fuel t).2).sect = .nl := by
  intro fuel
  induction fuel with
  | zero =>
    intro t e hne h
    simp [advFieldGo] at h
    first | exact absurd h.symm hne | exact absurd h hne
  | succ f ih =>
    intro t e hne
    rcases hs : t.sect <;> simp only [advFieldGo, hs]
    case measurement =>
      split
      all_goals rename_i heq
      · intro h
        have hm := err_sect_measurement t _ (by rw [heq])
        rw [heq] at hm
        exact hm
      · exact ih _ _ hne
    case tag =>
      split
      all_goals rename_i heq
      · intro h
        simp only [] at h
        cases h
        have hm := err_sect_consumeTags t e hne (by rw [heq])
        rw [heq] at hm
        exact hm
      · exact ih _ _ hne
    all_goals intro h
    all_goals exact absurd h (by simp)

theorem err_sect_advanceToField (t : Tok) (e : Err) (hne : ¬ e = Err.noFuel) :
    (t.advanceToField).1 = .error e → ((t.advanceToField).2).sect = .nl := by
  simp only [Tok.advanceToField]
  split_ifs
  · intro h; exact absurd h (by simp)
  · intro h; exact absurd h (by simp)
  · exact err_sect_advFieldGo 8 _ e hne

theorem err_sect_fieldEnd (t : Tok) (key : List Nat) (kind : ValueKind) (v : List Nat)
    (e : Err) :
    (t.fieldEnd key kind v).1 = .error e → ((t.fieldEnd key kind v).2).sect = .nl := by
  simp only [Tok.fieldEnd]
  split_ifs <;> intro h <;> first | rfl | exact absurd h (by simp)

set_option maxHeartbeats 1600000 in
theorem err_sect_nextFieldCore (t : Tok) (e : Err) :
    (t.nextFieldCore).1 = .error e → ((t.nextFieldCore).2).sect = .nl := by
  simp only [Tok.nextFieldCore]
  split_ifs
  all_goals try exact fun _ => rfl
  all_goals try exact err_sect_fieldEnd _ _ _ _ e
  all_goals split
  all_goals exact err_sect_fieldEnd _ _ _ _ e

theorem err_sect_nextFieldBytes (t : Tok) (e : Err) (hne : ¬ e = Err.noFuel) :
    (t.nextFieldBytes).1 = .error e → ((t.nextFieldBytes).2).sect = .nl := by
  simp only [Tok.nextFieldBytes]
  split
  all_goals rename_i heq
  · intro h
    simp only [] at h
    cases h
    have ha := err_sect_advanceToField t e hne (by rw [heq])
    rw [heq] at ha
    exact ha
  · intro h; exact absurd h (by simp)
  · exact err_sect_nextFieldCore _ e

theorem err_sect_consumeFieldsGo : ∀ fuel (t : Tok) (e : Err), ¬ e = Err.noFuel →
    (consumeFieldsGo fuel t).1 = .error e → ((consumeFieldsGo fuel t).2).sect = .nl := by
  intro fuel
  induction fuel with
  | zero =>
    intro t e hne h
    simp [consumeFieldsGo] at h
    first | exact absurd h.symm hne | exact absurd h hne
  | succ f ih =>
    intro t e hne
    simp only [consumeFieldsGo]
    split
    all_goals rename_i heq
    · intro h
      simp only [] at h
      cases h
      have hn := err_sect_nextFieldBytes t e hne (by rw [heq])
      rw [heq] at hn
      exact hn
    · intro h; exact absurd h (by simp)
    · exact ih _ _ hne

theorem err_sect_consumeFields (t : Tok) (e : Err) (hne : ¬ e = Err.noFuel) :
    (t.consumeFields).1 = .error e → ((t.consumeFields).2).sect = .nl :=
  err_sect_consumeFieldsGo _ t e hne

theorem err_sect_advTimeGo : ∀ fuel (t : Tok) (e : Err), ¬ e = Err.noFuel →
    (advTimeGo fuel t).1 = .error e → ((advTimeGo fuel t).2).sect = .nl := by
  intro fuel
  induction fuel with
  | zero =>
    intro t e hne h
    simp [advTimeGo] at h
    first | exact absurd h.symm hne | exact absurd h hne
  | succ f ih =>
    intro t e hne
    rcases hs : t.sect <;> simp only [advTimeGo, hs]
    case measurement =>
      split
      all_goals rename_i heq
      · intro h
        have hm := err_sect_measurement t _ (by rw [heq])
        rw [heq] at hm
        exact hm
      · exact ih _ _ hne
    case tag =>
      split
      all_goals rename_i heq
      · intro h
        simp only [] at h
        cases h
        have hm := err_sect_consumeTags t e hne (by rw [heq])
        rw [heq] at hm
        exact hm
      · exact ih _ _ hne
    case field =>
      split
      all_goals rename_i heq
      · intro h
        simp only [] at h
        cases h
        have hm := err_sect_consumeFields t e hne (by rw [heq])
        rw [heq] at hm
        exact hm
      · exact ih _ _ hne
    all_goals intro h
    all_goals exact absurd h (by simp)

theorem err_sect_advanceToTime (t : Tok) (e : Err) (hne : ¬ e = Err.noFuel) :
    (t.advanceToTime).1 = .error e → ((t.advanceToTime).2).sect = .nl := by
  simp only [Tok.advanceToTime]
  split_ifs
  · intro h; exact absurd h (by simp)
  · intro h; exact absurd h (by simp)
  · exact err_sect_advTimeGo 8 _ e hne

set_option maxHeartbeats 800000 in
theorem err_sect_timeCore (t : Tok) (e : Err) :
    (t.timeCore).1 = .error e → ((t.timeCore).2).sect = .nl := by
  simp only [Tok.timeCore]
  split_ifs <;> intro h <;> first | rfl | exact absurd h (by simp)

theorem err_sect_timeBytes (t : Tok) (e : Err) (hne : ¬ e = Err.noFuel) :
    (t.timeBytes).1 = .error e → ((t.timeBytes).2).sect = .nl := by
  simp only [Tok.timeBytes]
  split
  all_goals rename_i heq
  · intro h
    simp only [] at h
    cases h
    have ha := err_sect_advanceToTime t e hne (by rw [heq])
    rw [heq] at ha
    exact ha
  · intro h; exact absurd h (by simp)
  · exact err_sect_timeCore _ e

theorem nl_null_measurement (t : Tok) (hs : t.sect = .nl) :
    t.measurement = (.ok none, t) := by
  simp only [Tok.measurement, hs]

theorem nl_null_nextTag (t : Tok) (hs : t.sect = .nl) : t.nextTag = (.ok none, t) := by
  have h1 : t.advanceToTag = (.ok false, t) := by
    simp only [Tok.advanceToTag, hs]
    rw [if_neg (by decide), if_pos (by decide)]
  simp only [Tok.nextTag, h1]

theorem nl_null_nextFieldBytes (t : Tok) (hs : t.sect = .nl) :
    t.nextFieldBytes = (.ok none, t) := by
  have h1 : t.advanceToField = (.ok false, t) := by
    simp only [Tok.advanceToField, hs]
    rw [if_neg (by decide), if_pos (by decide)]
  simp only [Tok.nextFieldBytes, h1]

theorem nl_null_timeBytes (t : Tok) (hs : t.sect = .nl) : t.timeBytes = (.ok none, t) := by
  have h1 : t.advanceToTime = (.ok false, t) := by
    simp only [Tok.advanceToTime, hs]
    rw [if_neg (by decide), if_pos (by decide)]
  simp only [Tok.timeBytes, h1]

theorem take_rem (t : Tok) (s : ByteSet) :
    ((t.take s).2).rem = t.rem.drop (scanSet s t.rem) := by
  simp [Tok.take, Tok.rem, List.drop_drop, Nat.add_comm]

theorem advance_rem (t : Tok) (n : Nat) : (t.advance n).rem = t.rem.drop n := by
  simp [Tok.advance, Tok.rem, List.drop_drop, Nat.add_comm]

theorem reset_rem (t : Tok) : (t.reset).rem = t.rem := by
  simp only [Tok.reset]
  split_ifs with h
  · simp [Tok.rem, h]
  · simp [Tok.rem]

theorem reset_sect (t : Tok) : (t.reset).sect = t.sect := by
  simp only [Tok.reset]
  split_ifs <;> rfl

theorem consumeLine_sect (t : Tok) : (t.consumeLine).sect = .endSec := by
  simp only [Tok.consumeLine]

theorem consumeLine_rem (t : Tok) :
    (t.consumeLine).rem = t.rem.drop (scanSet notNewline t.rem + 1) := by
  simp only [Tok.consumeLine]
  have h1 : ((t.take notNewline).2).rem = t.rem.drop (scanSet notNewline t.rem) :=
    take_rem t notNewline
  have h2 := reset_rem (t.take notNewline).2
  split_ifs with he
  · show ((((t.take notNewline).2.reset).advance 1)).rem = _
    rw [advance_rem, h2, h1, List.drop_drop, Nat.add_comm]
  · show (((t.take notNewline).2.reset)).rem = _
    -- the scan consumed to the end of the buffer, so both sides are empty
    have hk : t.buf.length ≤ t.r1 + scanSet notNewline t.rem := by
      by_cases hx : (t.take notNewline).2.r1 = (t.take notNewline).2.buf.length
      · have hxx : t.r1 + scanSet notNewline t.rem = t.buf.length := by
          simpa [Tok.take, Tok.rem] using hx
        omega
      · have he' : ((t.take notNewline).2.reset).buf.length
            ≤ ((t.take notNewline).2.reset).r1 := by
          simp only [Tok.ensureB, decide_eq_true_eq, not_le] at he
          omega
        have hb : ((t.take notNewline).2.reset).buf = t.buf
            ∧ ((t.take notNewline).2.reset).r1 = t.r1 + scanSet notNewline t.rem := by
          simp only [Tok.reset, if_neg hx]
          exact ⟨rfl, by simp [Tok.take, Tok.rem]⟩
        rw [hb.1, hb.2] at he'
        exact he'
    rw [h2, h1]
    have hrl : t.rem.length = t.buf.length - t.r1 := by simp [Tok.rem]
    rw [List.drop_eq_nil_of_le (by omega), List.drop_eq_nil_of_le (by omega)]

theorem skipEmptyLinesGo_rem : ∀ fuel (t : Tok),
    ((skipEmptyLinesGo fuel t).rem <:+ t.rem)
    ∧ (skipEmptyLinesGo fuel t).sect = t.sect := by
  intro fuel
  induction fuel with
  | zero => intro t; exact ⟨List.suffix_refl _, rfl⟩
  | succ f ih =>
    intro t
    simp only [skipEmptyLinesGo]
    have hts : (t.takeFieldSpace).rem <:+ t.rem := by
      rw [show (t.takeFieldSpace).rem = t.rem.drop (scanSet fieldSeparatorSpace t.rem)
        from take_rem t fieldSeparatorSpace]
      exact List.drop_suffix _ _
    split_ifs with hc hn
    · constructor
      · rw [take_rem]
        exact (List.drop_suffix _ _).trans hts
      · rfl
    · obtain ⟨hr, hs⟩ := ih (((t.takeFieldSpace).take notNewline).2.advance 1)
      constructor
      · refine hr.trans ?_
        rw [advance_rem, take_rem]
        exact ((List.drop_suffix _ _).trans (List.drop_suffix _ _)).trans hts
      · rw [hs]; rfl
    · obtain ⟨hr, hs⟩ := ih ((t.takeFieldSpace).advance 1)
      constructor
      · refine hr.trans ?_
        rw [advance_rem]
        exact (List.drop_suffix _ _).trans hts
      · rw [hs]; rfl
    · exact ⟨hts, rfl⟩

theorem skipEmptyLines_rem (t : Tok) :
    ((t.skipEmptyLines).rem <:+ t.rem) ∧ (t.skipEmptyLines).sect = t.sect :=
  skipEmptyLinesGo_rem _ t

theorem advEndGo_nl_step (fuel : Nat) (t : Tok) (hs : t.sect = .nl) :
    advEndGo (fuel + 1) t = advEndGo fuel t.consumeLine := by
  simp only [advEndGo, hs]

theorem advEndGo_endSec_step (fuel : Nat) (t : Tok) (hs : t.sect = .endSec) :
    advEndGo (fuel + 1) t = (.ok true, { t with skipping := false }) := by
  simp only [advEndGo, hs]

theorem advanceToEnd_from_nl (t : Tok) (hs : t.sect = .nl) :
    t.advanceToEnd = (.ok true,
      { ({ t with skipping := true } : Tok).consumeLine with skipping := false }) := by
  rw [Tok.advanceToEnd, if_neg (by simp [hs])]
  rw [show (8 : Nat) = 7 + 1 from rfl, advEndGo_nl_step 7 _ (by simpa using hs),
    show (7 : Nat) = 6 + 1 from rfl, advEndGo_endSec_step 6 _ (consumeLine_sect _)]

theorem next_from_nl (t : Tok) (hs : t.sect = .nl) :
    ((t.next).2).sect = .measurement
    ∧ ((t.next).2).rem <:+ t.rem.drop (scanSet notNewline t.rem + 1) := by
  have h1 := advanceToEnd_from_nl t hs
  simp only [Tok.next, h1]
  constructor
  · rw [reset_sect]
  · rw [reset_rem]
    have hsk := (skipEmptyLines_rem
      ({ ({ t with skipping := true } : Tok).consumeLine with skipping := false })).1
    have hcl : ({ ({ t with skipping := true } : Tok).consumeLine
          with skipping := false} : Tok).rem
        = t.rem.drop (scanSet notNewline t.rem + 1) := by
      have hc := consumeLine_rem ({ t with skipping := true } : Tok)
      simpa [Tok.rem] using hc
    rw [hcl] at hsk
    exact hsk

/-- **C4.** Whenever a section-reading method reports a syntax error, the
tokenizer's section is set to the newline recovery section; while there,
every section-reading method returns a null result with no error (so the
line contributes no entry and at most one syntax error is reported per
entry); and the next call to `Next` consumes the remainder of the
physical line through its terminating newline and restarts at the
Measurement section (possibly also skipping following blank and comment
lines, which is why the final remainder is a suffix of the
after-the-newline remainder).  `Err.noFuel` is this embedding's
recursion-bound sentinel, not an error of the program, and is excluded. -/
theorem claim_C4_error_recovery (t : Tok) (e : Err) (hne : ¬ e = Err.noFuel) :
    ((t.measurement).1 = .error e → ((t.measurement).2).sect = .nl)
    ∧ ((t.nextTag).1 = .error e → ((t.nextTag).2).sect = .nl)
    ∧ ((t.nextFieldBytes).1 = .error e → ((t.nextFieldBytes).2).sect = .nl)
    ∧ ((t.timeBytes).1 = .error e → ((t.timeBytes).2).sect = .nl)
    ∧ (t.sect = .nl →
        t.measurement = (.ok none, t) ∧ t.nextTag = (.ok none, t)
        ∧ t.nextFieldBytes = (.ok none, t) ∧ t.timeBytes = (.ok none, t)
        ∧ ((t.next).2).sect = .measurement
        ∧ ((t.next).2).rem <:+ t.rem.drop (scanSet notNewline t.rem + 1)) :=
  ⟨err_sect_measurement t e, err_sect_nextTag t e hne, err_sect_nextFieldBytes t e hne,
   err_sect_timeBytes t e hne,
   fun hs => ⟨nl_null_measurement t hs, nl_null_nextTag t hs, nl_null_nextFieldBytes t hs,
     nl_null_timeBytes t hs, (next_from_nl t hs).1, (next_from_nl t hs).2⟩⟩

/-- Witness for C4 at a tokenizer parked in the recovery section with
`x\nm` left in the buffer. -/
theorem claim_C4_error_recovery_witness :
    ¬ Err.noMeasurement = Err.noFuel
    ∧ (⟨[120, 10, 109], 0, 0, [], false, Section.nl⟩ : Tok).nextTag
        = (.ok none, ⟨[120, 10, 109], 0, 0, [], false, Section.nl⟩)
    ∧ (((⟨[120, 10, 109], 0, 0, [], false, Section.nl⟩ : Tok).next).2).sect
        = .measurement :=
  ⟨by decide,
   ((claim_C4_error_recovery ⟨[120, 10, 109], 0, 0, [], false, Section.nl⟩
      Err.noMeasurement (by decide)).2.2.2.2 rfl).2.1,
   ((claim_C4_error_recovery ⟨[120, 10, 109], 0, 0, [], false, Section.nl⟩
      Err.noMeasurement (by decide)).2.2.2.2 rfl).2.2.2.2.1⟩

/-! ### Claim C9: a tag ending exactly at end of input -/

theorem takeEsc_eof (t : Tok) (set : ByteSet) (escT : Nat → Nat)
    (he : t.buf.length ≤ t.r1) : t.takeEsc set escT = ([], t) := by
  have hlt : ¬ t.r1 < t.buf.length := by omega
  simp [Tok.takeEsc, takeEscGo, hlt, listExtract_self]

theorem field_null_nextTag (t : Tok) (hs : t.sect = .field) : t.nextTag = (.ok none, t) := by
  have h1 : t.advanceToTag = (.ok false, t) := by
    simp only [Tok.advanceToTag, hs]
    rw [if_neg (by decide), if_pos (by decide)]
  simp only [Tok.nextTag, h1]

theorem nextFieldBytes_eof_field (t : Tok) (hs : t.sect = .field)
    (he : t.buf.length ≤ t.r1) :
    t.nextFieldBytes = (.error .expectedFieldKey, { t with sect := .nl }) := by
  have h1 : t.advanceToField = (.ok true, t) := by
    simp only [Tok.advanceToField]
    rw [if_pos hs]
  simp only [Tok.nextFieldBytes, h1, Tok.nextFieldCore]
  rw [takeEsc_eof t fieldKeyChars fieldKeyEscapes.revTable he]
  simp [Tok.failWith]

/-- **C9 (amended).** If the input ends immediately after a tag value (no
whitespace and no further bytes), `NextTag` returns that tag's key and
value without error and moves the tokenizer to the Field section, and a
further `NextTag` then returns a null result — but the next section's
reading call `NextFieldBytes` does not return a null result: it reports
the `expected field key` syntax error and enters the recovery section.
The hypotheses spell out the scan of the tag: no leading field
separator, a nonempty key followed by `=`, a nonempty value, and end of
input right after the value. -/
theorem claim_C9_tag_at_eof (t : Tok) (hs : t.sect = .tag)
    (h1 : (t.ensureB 1 && fieldSeparatorSpace.get (t.atB 0)) = false)
    (h2 : (t.takeEsc tagKeyChars tagKeyEscapes.revTable).1.isEmpty = false)
    (h3 : ((t.takeEsc tagKeyChars tagKeyEscapes.revTable).2).ensureB 1 = true)
    (h4 : ((t.takeEsc tagKeyChars tagKeyEscapes.revTable).2).atB 0 = 61)
    (h5 : ((((t.takeEsc tagKeyChars tagKeyEscapes.revTable).2).advance 1).takeEsc
        tagValChars tagValEscapes.revTable).1.isEmpty = false)
    (h6 : (((((t.takeEsc tagKeyChars tagKeyEscapes.revTable).2).advance 1).takeEsc
        tagValChars tagValEscapes.revTable).2).ensureB 1 = false) :
    t.nextTag = (.ok (some ((t.takeEsc tagKeyChars tagKeyEscapes.revTable).1,
        ((((t.takeEsc tagKeyChars tagKeyEscapes.revTable).2).advance 1).takeEsc
          tagValChars tagValEscapes.revTable).1)),
      { ((((t.takeEsc tagKeyChars tagKeyEscapes.revTable).2).advance 1).takeEsc
          tagValChars tagValEscapes.revTable).2 with sect := .field })
    ∧ ((t.nextTag).2).nextTag = (.ok none, (t.nextTag).2)
    ∧ (((t.nextTag).2).nextFieldBytes).1 = .error .expectedFieldKey
    ∧ ((((t.nextTag).2).nextFieldBytes).2).sect = .nl := by
  have hadv : t.advanceToTag = (.ok true, t) := by
    simp only [Tok.advanceToTag]
    rw [if_pos hs]
  have hmain : t.nextTag = (.ok (some ((t.takeEsc tagKeyChars tagKeyEscapes.revTable).1,
      ((((t.takeEsc tagKeyChars tagKeyEscapes.revTable).2).advance 1).takeEsc
        tagValChars tagValEscapes.revTable).1)),
      { ((((t.takeEsc tagKeyChars tagKeyEscapes.revTable).2).advance 1).takeEsc
          tagValChars tagValEscapes.revTable).2 with sect := .field }) := by
    simp only [Tok.nextTag, hadv, Tok.nextTagCore]
    rw [if_neg (by simp [h1]), if_neg (by simp [h2]), if_neg (by simp [h3, h4]),
      if_neg (by simp [h5]), if_pos (by simp [h6])]
  have he : (((((t.takeEsc tagKeyChars tagKeyEscapes.revTable).2).advance 1).takeEsc
      tagValChars tagValEscapes.revTable).2).buf.length
      ≤ (((((t.takeEsc tagKeyChars tagKeyEscapes.revTable).2).advance 1).takeEsc
        tagValChars tagValEscapes.revTable).2).r1 := by
    simp only [Tok.ensureB] at h6
    rw [decide_eq_false_iff_not] at h6
    omega
  have hfb := nextFieldBytes_eof_field
    ({ ((((t.takeEsc tagKeyChars tagKeyEscapes.revTable).2).advance 1).takeEsc
        tagValChars tagValEscapes.revTable).2 with sect := .field }) rfl he
  refine ⟨hmain, ?_, ?_, ?_⟩
  · rw [hmain]
    exact field_null_nextTag _ rfl
  · rw [hmain]
    rw [hfb]
  · rw [hmain]
    rw [hfb]

/-- Witness for the amended C9 at the tag-section state holding `k=v`. -/
theorem claim_C9_tag_at_eof_witness :
    ((⟨[107, 61, 118], 0, 0, [], false, Section.tag⟩ : Tok).ensureB 1
        && fieldSeparatorSpace.get
            ((⟨[107, 61, 118], 0, 0, [], false, Section.tag⟩ : Tok).atB 0)) = false
    ∧ ((((⟨[107, 61, 118], 0, 0, [], false, Section.tag⟩ : Tok).nextTag).2).nextFieldBytes).1
        = .error .expectedFieldKey :=
  ⟨by decide,
   (claim_C9_tag_at_eof ⟨[107, 61, 118], 0, 0, [], false, Section.tag⟩ rfl
      (by decide) (by decide) (by decide) (by decide) (by decide) (by decide)).2.2.1⟩

/-- **C9 (counterexample to the spec's wording).** On the tag-section
state holding `k=v`, `NextTag` yields the tag `k=v` and parks at the
Field section, but the next section's reading call (`NextFieldBytes`)
does not return a null result: it fails with `expected field key`. -/
theorem claim_C9_counterexample :
    (((⟨[107, 61, 118], 0, 0, [], false, Section.tag⟩ : Tok).nextTag).1
        = .ok (some ([107], [118])))
    ∧ ((((⟨[107, 61, 118], 0, 0, [], false, Section.tag⟩ : Tok).nextTag).2).sect
        = .field)
    ∧ ((((⟨[107, 61, 118], 0, 0, [], false, Section.tag⟩ : Tok).nextTag).2).nextFieldBytes).1
        = .error .expectedFieldKey
    ∧ ¬ ((((⟨[107, 61, 118], 0, 0, [], false, Section.tag⟩ : Tok).nextTag).2).nextFieldBytes).1
        = .ok none := by
  refine ⟨rfl, rfl, rfl, fun h => ?_⟩
  exact Except.noConfusion
    (h : (Except.error Err.expectedFieldKey
        : Except Err (Option (List Nat × ValueKind × List Nat))) = .ok none)

/-! ### Claim C2: skipping earlier sections versus reading them explicitly -/

theorem take_skipping (t : Tok) (s : ByteSet) : (t.take s).2.skipping = t.skipping := rfl

